import Mathlib

/-!
Elevator controller and linked list of `pointer-wars-week2`.

A shallow embedding of `src/elevator.c` (the tick function `run`) and of
`src/linked_list.c`, followed by theorems about them.

Conventions of the embedding of `elevator.c`:

* `struct ElevatorData` is a Lean structure; `run` receives the data the
  `struct Elevator` points to and returns the new data (explicit state passing).
* `int` values are `Int`.  Floors are in `[0, NUM_FLOORS)` and timers are small
  multiples of the two time constants, so no 32-bit overflow is in play.
* `#define DOOR_TIME = 2` and `#define MOVE_TIME = 3` are read as the constants
  2 and 3.
* `run` has no `return` statement; the action it emits is taken to be the final
  value of its local `toReturn`.
* The bare identifier `currentFloor` in `removeRequest(e->data, currentFloor)` is
  read as `e->data->currentFloor`.
* `handleInput`, `hasPendingRequests`, `selectNextFloor` and `removeRequest` are
  called by `run` but defined nowhere in the repository; they are modelled from
  the specification (sections 4.1 to 4.3).
-/

namespace Elevator

/-- Number of floors, `#define NUM_FLOORS 10`. -/
def NUM_FLOORS : Nat := 10

/-- Door-hold duration, from `#define DOOR_TIME = 2`. -/
def DOOR_TIME : Int := 2

/-- Movement duration per floor, from `#define MOVE_TIME = 3`. -/
def MOVE_TIME : Int := 3

/-- Enumeration `ElevatorState`. -/
inductive ElevatorState where
  | IDLE
  | MOVING_UP
  | MOVING_DOWN
  | DOOR_OPEN
deriving DecidableEq, Repr

/-- Enumeration `InputEvent`. -/
inductive InputEvent where
  | INPUT_NONE
  | INPUT_CALL_BUTTON
  | INPUT_FLOOR_BUTTON
  | INPUT_DOOR_OPEN
  | INPUT_DOOR_CLOSE
deriving DecidableEq, Repr

/-- Enumeration `OutputEvent`. -/
inductive OutputEvent where
  | OUTPUT_NOTHING
  | OUTPUT_OPEN_DOOR
  | OUTPUT_CLOSE_DOOR
  | OUTPUT_MOVING_UP
  | OUTPUT_MOVING_DOWN
deriving DecidableEq, Repr

open ElevatorState InputEvent OutputEvent

/-- The record `struct ElevatorData`; `requests` is the array
`bool requests[NUM_FLOORS]`, entry `f` at list position `f`. -/
structure ElevatorData where
  currentFloor : Int
  targetFloor : Int
  state : ElevatorState
  requests : List Bool
  timer : Int
  unhandledDoorOpen : Bool
  unhandledDoorClose : Bool
deriving DecidableEq, Repr

/-- The array read `requests[f]`; a floor outside the array reads as not requested. -/
def isRequested (d : ElevatorData) (f : Int) : Bool :=
  if 0 ≤ f then d.requests.getD f.toNat false else false

/-- Modelled from the spec: `handleInput` is missing from the repository.
Section 4.3: a call or floor button raises the floor in the request set, a
door command sets the matching pending flag, no event changes nothing.  A floor
outside `[0, NUM_FLOORS)` is a caller contract violation; the model ignores it. -/
def handleInput (d : ElevatorData) (input : InputEvent) (inputFloor : Int) : ElevatorData :=
  match input with
  | INPUT_NONE => d
  | INPUT_CALL_BUTTON | INPUT_FLOOR_BUTTON =>
    if 0 ≤ inputFloor ∧ inputFloor < NUM_FLOORS then
      { d with requests := d.requests.set inputFloor.toNat true }
    else d
  | INPUT_DOOR_OPEN => { d with unhandledDoorOpen := true }
  | INPUT_DOOR_CLOSE => { d with unhandledDoorClose := true }

/-- Modelled from the spec: `hasPendingRequests` is missing from the repository.
Section 4.1, `has_any()`: whether any floor is requested. -/
def hasPendingRequests (d : ElevatorData) : Bool :=
  (List.range NUM_FLOORS).any (fun f => isRequested d f)

/-- Modelled from the spec: `removeRequest` is missing from the repository.
Section 4.1, `clear(floor)`: marks the floor served. -/
def removeRequest (d : ElevatorData) (floor : Int) : ElevatorData :=
  if 0 ≤ floor ∧ floor < NUM_FLOORS then
    { d with requests := d.requests.set floor.toNat false }
  else d

/-- One step of the nearest-floor scan: candidate `f` replaces `best` when there
is no candidate yet (`-1`) or `f` is strictly nearer to `cur`.  Scanning the
floors upwards, a tie keeps the lower floor. -/
def nearer (cur best f : Int) : Int :=
  if best = -1 then f
  else if (f - cur).natAbs < (best - cur).natAbs then f
  else best

/-- The nearest requested floor among those satisfying `p`, or `-1`. -/
def nearestRequest (d : ElevatorData) (p : Int → Bool) : Int :=
  (List.range NUM_FLOORS).foldl
    (fun best f => if isRequested d f && p f then nearer d.currentFloor best f else best) (-1)

/-- Modelled from the spec: `selectNextFloor` is missing from the repository.
Section 4.2: with a direction of travel, the nearest requested floor in that
direction, else the nearest one in the opposite direction; at rest, the nearest
requested floor by absolute distance, ties toward the lower floor; `-1` when
nothing is requested. -/
def selectNextFloor (d : ElevatorData) : Int :=
  match d.state with
  | MOVING_UP =>
    let ahead := nearestRequest d (fun f => decide (d.currentFloor < f))
    if ahead = -1 then nearestRequest d (fun f => decide (f < d.currentFloor)) else ahead
  | MOVING_DOWN =>
    let ahead := nearestRequest d (fun f => decide (f < d.currentFloor))
    if ahead = -1 then nearestRequest d (fun f => decide (d.currentFloor < f)) else ahead
  | _ => nearestRequest d (fun _ => true)

/-- The statement `if(e->data->timer > 0) e->data->timer--;` of `run`. -/
def tickTimer (d : ElevatorData) : ElevatorData :=
  if d.timer > 0 then { d with timer := d.timer - 1 } else d

/-- The function `run` of `elevator.c`, statement by statement.  The result is
the final value of `toReturn` together with the new `ElevatorData`. -/
def run (d : ElevatorData) (input : InputEvent) (inputFloor : Int) :
    OutputEvent × ElevatorData :=
  let d1 := handleInput d input inputFloor
  let d2 := tickTimer d1
  match d2.state with
  | IDLE =>
    if d2.unhandledDoorOpen then
      (OUTPUT_OPEN_DOOR, { d2 with timer := DOOR_TIME, unhandledDoorOpen := false })
    else if hasPendingRequests d2 then
      let next := selectNextFloor d2
      if next = -1 then (OUTPUT_NOTHING, d2)
      else
        let d3 := { d2 with targetFloor := next }
        if next = d3.currentFloor then
          if d3.timer = 0 then
            (OUTPUT_OPEN_DOOR, { d3 with state := DOOR_OPEN, timer := DOOR_TIME })
          else
            (if d3.timer = 0 then OUTPUT_CLOSE_DOOR else OUTPUT_NOTHING,
              removeRequest { d3 with state := IDLE } d3.currentFloor)
        else if next < d3.currentFloor then
          (OUTPUT_MOVING_DOWN,
            { d3 with targetFloor := next, timer := MOVE_TIME * (d3.currentFloor - next) })
        else if next > d3.currentFloor then
          (OUTPUT_MOVING_UP,
            { d3 with targetFloor := next, timer := MOVE_TIME * (next - d3.currentFloor) })
        else (OUTPUT_NOTHING, d3)
    else (OUTPUT_NOTHING, d2)
  | MOVING_UP => (OUTPUT_NOTHING, d2)
  | MOVING_DOWN => (OUTPUT_NOTHING, d2)
  | DOOR_OPEN =>
    if d2.unhandledDoorClose then
      (OUTPUT_CLOSE_DOOR, { d2 with state := IDLE })
    else
      let d3 := { d2 with timer := d2.timer - 1 }
      if d3.timer ≤ 0 then (OUTPUT_CLOSE_DOOR, { d3 with state := IDLE })
      else (OUTPUT_NOTHING, d3)

/-- Calling `run` once per listed input, collecting the emitted actions in order. -/
def runTrace (d : ElevatorData) : List (InputEvent × Int) → List OutputEvent × ElevatorData
  | [] => ([], d)
  | (input, inputFloor) :: rest =>
    let r := run d input inputFloor
    let t := runTrace r.2 rest
    (r.1 :: t.1, t.2)

/-- The cabin state at system start at floor `floor`: idle, timer 0, no
requests, no pending door command. -/
def initialData (floor : Int) : ElevatorData :=
  { currentFloor := floor, targetFloor := floor, state := IDLE,
    requests := List.replicate NUM_FLOORS false, timer := 0,
    unhandledDoorOpen := false, unhandledDoorClose := false }

/-- The request array in which floor `f` alone is requested. -/
def onlyRequest (f : Nat) : List Bool :=
  (List.replicate NUM_FLOORS false).set f true

/-- A cabin at rest at floor `floor` (idle, timer 0, no pending door command)
whose only request is floor `f`. -/
def idleWithRequest (floor : Int) (f : Nat) : ElevatorData :=
  { initialData floor with requests := onlyRequest f }

/-- The state the round-trip scenario is in after its first tick, and after
every later one: idle at floor 0, target 2, timer 6, floor 2 requested. -/
def stuckData : ElevatorData :=
  { currentFloor := 0, targetFloor := 2, state := IDLE, requests := onlyRequest 2,
    timer := 6, unhandledDoorOpen := false, unhandledDoorClose := false }

/-- A cabin at floor `floor` in state `st` with timer `t`, target `target`, no
request and no pending door command. -/
def cabinIn (st : ElevatorState) (floor target t : Int) : ElevatorData :=
  { initialData floor with state := st, targetFloor := target, timer := t }

/-- The initial state of the controller: idle, timer 0, no floor requested, no
pending door command (any floor, any target). -/
def isInitial (d : ElevatorData) : Prop :=
  d.state = IDLE ∧ d.timer = 0 ∧ hasPendingRequests d = false
    ∧ d.unhandledDoorOpen = false ∧ d.unhandledDoorClose = false

instance (d : ElevatorData) : Decidable (isInitial d) := by
  unfold isInitial; infer_instance

/-- The direction predicate on a state: moving up means the target is above the
current floor, moving down means it is below. -/
def directionOk (d : ElevatorData) : Prop :=
  (d.state = MOVING_UP → d.targetFloor > d.currentFloor)
    ∧ (d.state = MOVING_DOWN → d.targetFloor < d.currentFloor)

instance (d : ElevatorData) : Decidable (directionOk d) := by
  unfold directionOk; infer_instance

end Elevator

/-!
The linked list of `linked_list.c`.

Conventions of the embedding:

* Nodes live in a store `Mem.nodes`; a node pointer is `Option Nat`, `none`
  being `NULL` and `some a` the address of cell `a`.  A cell is `none` once it
  has been freed.
* The list header (`struct linked_list`) and iterators are passed by value;
  a `NULL` pointer to one is `none`.  The `ll` field of an iterator, which no
  function reads, is left out.
* `size_t` values are `Nat` reduced modulo `2 ^ 64` where the source can wrap
  (`index - 1`, `size++`, `size--`, `current_index++`).
* The registered allocator is described by the flags `malloc_fptr`, `free_fptr`
  (registered or `NULL`) and by `outcomes`, the results of its coming calls
  (`true` a block, `false` a `NULL` result; past the end of the list every call
  yields a block).  A new node gets the first address past the store.
* A function returns `none` when the source dereferences a pointer that holds
  no live node (undefined behaviour), otherwise `some` of its result and the
  new memory.
-/

namespace LinkedList

/-- Largest `size_t` value on a 64-bit target. -/
def SIZE_MAX : Nat := 2 ^ 64 - 1

/-- The record `struct node`. -/
structure node where
  data : Nat
  next : Option Nat
deriving DecidableEq, Repr

/-- The record `struct linked_list`. -/
structure linked_list where
  head : Option Nat
  tail : Option Nat
  size : Nat
deriving DecidableEq, Repr

/-- The record `struct iterator`, without its unread back pointer `ll`. -/
structure iterator where
  current_node : Option Nat
  current_index : Nat
  data : Nat
deriving DecidableEq, Repr

/-- The memory the list functions work on: the two allocator function pointers,
the results of the coming allocation calls, and the node store. -/
structure Mem where
  malloc_fptr : Bool
  free_fptr : Bool
  outcomes : List Bool
  nodes : List (Option node)
deriving DecidableEq, Repr

/-- The node at address `a`, or `none` when no live node is there. -/
def Mem.node_at (m : Mem) (a : Nat) : Option node :=
  (m.nodes[a]?).join

/-- One call `malloc_fptr(...)`: whether it yields a block, and the memory with
that outcome consumed. -/
def Mem.malloc (m : Mem) : Bool × Mem :=
  match m.outcomes with
  | [] => (true, m)
  | b :: rest => (b, { m with outcomes := rest })

/-- Placing a freshly allocated, initialised node in the store; returns its address. -/
def Mem.new_node (m : Mem) (nd : node) : Nat × Mem :=
  (m.nodes.length, { m with nodes := m.nodes ++ [some nd] })

/-- Overwriting the node at address `a`. -/
def Mem.write (m : Mem) (a : Nat) (nd : node) : Mem :=
  { m with nodes := m.nodes.set a (some nd) }

/-- The call `free_fptr(a)` on a node. -/
def Mem.free (m : Mem) (a : Nat) : Mem :=
  { m with nodes := m.nodes.set a none }

/-- The function `linked_list_register_malloc`; `none` is a `NULL` function pointer,
`some outcomes` an allocator with the given coming results. -/
def linked_list_register_malloc (m : Mem) (malloc_func : Option (List Bool)) : Bool × Mem :=
  match malloc_func with
  | none => (false, m)
  | some o => (true, { m with malloc_fptr := true, outcomes := o })

/-- The function `linked_list_register_free`; the flag says whether the
argument is a function (`true`) or `NULL`. -/
def linked_list_register_free (m : Mem) (free_func : Bool) : Bool × Mem :=
  if free_func then (true, { m with free_fptr := true }) else (false, m)

/-- The function `linked_list_create`. -/
def linked_list_create (m : Mem) : Mem × Option linked_list :=
  if !m.malloc_fptr || !m.free_fptr then (m, none)
  else
    let r := m.malloc
    if !r.1 then (r.2, none)
    else (r.2, some { head := none, tail := none, size := 0 })

/-- The function `linked_list_size`. -/
def linked_list_size (ll : Option linked_list) : Nat :=
  match ll with
  | none => SIZE_MAX
  | some l => l.size

/-- The function `linked_list_insert_end`. -/
def linked_list_insert_end (m : Mem) (ll : Option linked_list) (data : Nat) :
    Option (Bool × Mem × Option linked_list) :=
  match ll with
  | none => some (false, m, none)
  | some l =>
    if !m.malloc_fptr then some (false, m, some l)
    else
      let r := m.malloc
      if !r.1 then some (false, r.2, some l)
      else
        let n := r.2.new_node { data := data, next := none }
        match l.head with
        | none =>
          some (true, n.2,
            some { l with head := some n.1, tail := some n.1, size := (l.size + 1) % 2 ^ 64 })
        | some _ =>
          match l.tail with
          | none => none
          | some t =>
            match n.2.node_at t with
            | none => none
            | some tn =>
              some (true, n.2.write t { tn with next := some n.1 },
                some { l with tail := some n.1, size := (l.size + 1) % 2 ^ 64 })

/-- The function `linked_list_insert_front`. -/
def linked_list_insert_front (m : Mem) (ll : Option linked_list) (data : Nat) :
    Option (Bool × Mem × Option linked_list) :=
  match ll with
  | none => some (false, m, none)
  | some l =>
    if !m.malloc_fptr then some (false, m, some l)
    else
      let r := m.malloc
      if !r.1 then some (false, r.2, some l)
      else
        let n := r.2.new_node { data := data, next := l.head }
        let l1 := { l with head := some n.1 }
        let l2 := if l1.tail = none then { l1 with tail := some n.1 } else l1
        some (true, n.2, some { l2 with size := (l2.size + 1) % 2 ^ 64 })

/-- The loop of `linked_list_create_iterator`:
`while(current != NULL && current_index < index)`, with `steps` the distance
`index - current_index` still to go.  Returns the final `current` and
`current_index`. -/
def advance (m : Mem) : Nat → Option Nat → Nat → Option (Option Nat × Nat)
  | 0, current, current_index => some (current, current_index)
  | _ + 1, none, current_index => some (none, current_index)
  | steps + 1, some a, current_index =>
    match m.node_at a with
    | none => none
    | some nd => advance m steps nd.next (current_index + 1)

/-- The function `linked_list_create_iterator`. -/
def linked_list_create_iterator (m : Mem) (ll : Option linked_list) (index : Nat) :
    Option (Mem × Option iterator) :=
  match ll with
  | none => some (m, none)
  | some l =>
    if !m.malloc_fptr || decide (l.size < index) || l.size == 0 then some (m, none)
    else
      let r := m.malloc
      if !r.1 then some (r.2, none)
      else
        match advance r.2 index l.head 0 with
        | none => none
        | some (current, current_index) =>
          match current with
          | none => none
          | some a =>
            match r.2.node_at a with
            | none => none
            | some nd =>
              some (r.2, some { current_node := some a, current_index := current_index,
                                data := nd.data })

/-- The function `linked_list_delete_iterator`; iterators are values, so
releasing one leaves the memory as it is. -/
def linked_list_delete_iterator (m : Mem) (iter : Option iterator) : Bool :=
  match iter with
  | none => false
  | some _ => m.free_fptr

/-- The function `linked_list_iterate`. -/
def linked_list_iterate (m : Mem) (iter : Option iterator) :
    Option (Bool × Option iterator) :=
  match iter with
  | none => some (false, none)
  | some it =>
    match it.current_node with
    | none => some (false, some it)
    | some a =>
      match m.node_at a with
      | none => none
      | some nd =>
        match nd.next with
        | none => some (false, some it)
        | some b =>
          match m.node_at b with
          | none => none
          | some nb =>
            some (true, some { current_node := some b,
                               current_index := (it.current_index + 1) % 2 ^ 64,
                               data := nb.data })

/-- The function `linked_list_insert`. -/
def linked_list_insert (m : Mem) (ll : Option linked_list) (index : Nat) (data : Nat) :
    Option (Bool × Mem × Option linked_list) :=
  match ll with
  | none => some (false, m, none)
  | some l =>
    if !m.malloc_fptr || decide (l.size < index) then some (false, m, some l)
    else if l.head = none then linked_list_insert_front m (some l) data
    else
      match linked_list_create_iterator m (some l) ((index + SIZE_MAX) % 2 ^ 64) with
      | none => none
      | some (m1, none) => some (false, m1, some l)
      | some (m1, some new_iterator) =>
        let r := m1.malloc
        if !r.1 then some (false, r.2, some l)
        else
          match new_iterator.current_node with
          | none => none
          | some c =>
            match r.2.node_at c with
            | none => none
            | some cn =>
              let n := r.2.new_node { data := data, next := cn.next }
              let m2 := n.2.write c { cn with next := some n.1 }
              let l1 :=
                if index = 0 then { l with head := some n.1 }
                else if cn.next = none then { l with tail := some n.1 }
                else l
              some (true, m2, some { l1 with size := (l1.size + 1) % 2 ^ 64 })

/-- The loop of `linked_list_find`, `while(current != NULL)`, run for at most
`fuel` nodes; `none` when a node is not live or the fuel runs out. -/
def find_loop (m : Mem) (data : Nat) : Nat → Option Nat → Nat → Option Nat
  | _, none, _ => some SIZE_MAX
  | 0, some _, _ => none
  | fuel + 1, some a, current_index =>
    match m.node_at a with
    | none => none
    | some nd =>
      if nd.data = data then some current_index
      else find_loop m data fuel nd.next ((current_index + 1) % 2 ^ 64)

/-- The function `linked_list_find`.  A chain of live nodes without a cycle
has at most `nodes.length` nodes, so the fuel only runs out on a cyclic chain,
where the source loops forever. -/
def linked_list_find (m : Mem) (ll : Option linked_list) (data : Nat) : Option Nat :=
  match ll with
  | none => some SIZE_MAX
  | some l => find_loop m data (m.nodes.length + 1) l.head 0

/-- The function `linked_list_remove`. -/
def linked_list_remove (m : Mem) (ll : Option linked_list) (index : Nat) :
    Option (Bool × Mem × Option linked_list) :=
  match ll with
  | none => some (false, m, none)
  | some l =>
    if !m.free_fptr || decide (l.size < index) then some (false, m, some l)
    else if index = 0 then
      match l.head with
      | none => none
      | some h =>
        match m.node_at h with
        | none => none
        | some hn =>
          let l1 := { l with head := hn.next }
          let l2 := if l1.head = none then { l1 with tail := none } else l1
          some (true, m.free h, some { l2 with size := (l2.size + SIZE_MAX) % 2 ^ 64 })
    else
      match linked_list_create_iterator m (some l) ((index + SIZE_MAX) % 2 ^ 64) with
      | none => none
      | some (m1, none) => some (false, m1, some l)
      | some (m1, some iter) =>
        match iter.current_node with
        | none => some (false, m1, some l)
        | some c =>
          match m1.node_at c with
          | none => none
          | some cn =>
            match cn.next with
            | none => some (false, m1, some l)
            | some to_remove =>
              match m1.node_at to_remove with
              | none => none
              | some rn =>
                let m2 := m1.write c { cn with next := rn.next }
                let l1 := if rn.next = none then { l with tail := some c } else l
                some (true, m2.free to_remove,
                  some { l1 with size := (l1.size + SIZE_MAX) % 2 ^ 64 })

/-- The loop of `linked_list_delete`, freeing node after node for at most `fuel`
nodes.  Each round reads `current->next` and then calls `free_fptr(current)`
without a test of `free_fptr`: with no release function registered the call goes
through a `NULL` function pointer, which has no defined result. -/
def delete_loop : Nat → Mem → Option Nat → Option Mem
  | _, m, none => some m
  | 0, _, some _ => none
  | fuel + 1, m, some a =>
    match m.node_at a with
    | none => none
    | some nd => if m.free_fptr then delete_loop fuel (m.free a) nd.next else none

/-- The function `linked_list_delete`.  On an empty list the loop body never
runs, so the call returns `true` whether or not a release function is
registered. -/
def linked_list_delete (m : Mem) (ll : Option linked_list) :
    Option (Bool × Mem × Option linked_list) :=
  match ll with
  | none => some (false, m, none)
  | some l =>
    match delete_loop (m.nodes.length + 1) m l.head with
    | none => none
    | some m1 => some (true, m1, some { head := none, tail := none, size := 0 })

/-- The values read along the `next` pointers from `p`, for at most `fuel`
nodes; `none` when a node is not live or the chain is longer than `fuel`. -/
def chain (m : Mem) : Nat → Option Nat → Option (List Nat)
  | _, none => some []
  | 0, some _ => none
  | fuel + 1, some a =>
    match m.node_at a with
    | none => none
    | some nd => (chain m fuel nd.next).map (fun rest => nd.data :: rest)

/-- The sequence of values a list holds, read from `head`. -/
def contents (m : Mem) (l : linked_list) : Option (List Nat) :=
  chain m m.nodes.length l.head

/-- The relation between memory and an abstract sequence: the `next` pointers
lead from `p` through the nodes listed in `cells` (address and value of each, in
order) and the `next` field of the last one is `q` (`p` itself when `cells` is
empty). -/
def linked (m : Mem) : Option Nat → List (Nat × Nat) → Option Nat → Bool
  | p, [], q => p == q
  | p, (a, v) :: rest, q =>
    p == some a &&
      match m.node_at a with
      | none => false
      | some nd => nd.data == v && linked m nd.next rest q

/-- A well-formed list: the header `l` and the memory `m` hold the nodes `cells`
(address and value, in order).  The chain from `head` runs through `cells` to
`NULL`, no address occurs twice, `tail` is the last address (`NULL` for no
node), and `size` is the number of nodes, which fits a `size_t`. -/
def wellFormed (m : Mem) (l : linked_list) (cells : List (Nat × Nat)) : Prop :=
  linked m l.head cells none = true
    ∧ (cells.map Prod.fst).Nodup
    ∧ l.tail = (cells.map Prod.fst).getLast?
    ∧ l.size = cells.length
    ∧ cells.length ≤ SIZE_MAX

instance (m : Mem) (l : linked_list) (cells : List (Nat × Nat)) :
    Decidable (wellFormed m l cells) := by
  unfold wellFormed; infer_instance

/-- A memory with both allocator functions registered, every allocation
succeeding, and no node yet. -/
def emptyMem : Mem :=
  { malloc_fptr := true, free_fptr := true, outcomes := [], nodes := [] }

/-- The empty list header that `linked_list_create` produces. -/
def emptyList : linked_list :=
  { head := none, tail := none, size := 0 }

/-- The memory holding the single node of the list `[1]`, at address 0. -/
def singletonMem : Mem :=
  { emptyMem with nodes := [some { data := 1, next := none }] }

/-- The header of the list `[1]` in `singletonMem`. -/
def singletonList : linked_list :=
  { head := some 0, tail := some 0, size := 1 }

/-- The memory holding the two nodes of the list `[1, 2]`, at addresses 0 and 1. -/
def pairMem : Mem :=
  { emptyMem with nodes := [some { data := 1, next := some 1 }, some { data := 2, next := none }] }

/-- The header of the list `[1, 2]` in `pairMem`. -/
def pairList : linked_list :=
  { head := some 0, tail := some 1, size := 2 }

/-- The memory `pairMem` with an allocator whose next call returns `NULL`. -/
def pairMemExhausted : Mem :=
  { pairMem with outcomes := [false] }

/-- The memory holding the three nodes of the list `[4, 7, 7]`, at addresses 0 to 2. -/
def tripleMem : Mem :=
  { emptyMem with nodes := [some { data := 4, next := some 1 }, some { data := 7, next := some 2 },
      some { data := 7, next := none }] }

/-- The header of the list `[4, 7, 7]` in `tripleMem`. -/
def tripleList : linked_list :=
  { head := some 0, tail := some 2, size := 3 }

/-- The loop of a caller that reads a list through an iterator: take the value
under the iterator, call `linked_list_iterate`, and go on while it returns
`true`.  At most `fuel` values are read; `none` when the fuel runs out or a
node is missing. -/
def iterate_all (m : Mem) : Nat → iterator → Option (List Nat)
  | 0, _ => none
  | fuel + 1, it =>
    match linked_list_iterate m (some it) with
    | none => none
    | some (true, some next) => (iterate_all m fuel next).map (fun rest => it.data :: rest)
    | some (true, none) => none
    | some (false, _) => some [it.data]

/-- A call of one of the four functions that modify a list. -/
inductive ListCall where
  | insert_front (data : Nat)
  | insert_end (data : Nat)
  | insert (index data : Nat)
  | remove (index : Nat)
deriving DecidableEq, Repr

/-- One call on the list `ll`, its return value dropped. -/
def runCall (m : Mem) (ll : Option linked_list) (c : ListCall) :
    Option (Mem × Option linked_list) :=
  match c with
  | ListCall.insert_front data => (linked_list_insert_front m ll data).map (fun r => r.2)
  | ListCall.insert_end data => (linked_list_insert_end m ll data).map (fun r => r.2)
  | ListCall.insert index data => (linked_list_insert m ll index data).map (fun r => r.2)
  | ListCall.remove index => (linked_list_remove m ll index).map (fun r => r.2)

/-- The calls performed in order; `none` as soon as one of them dereferences a
pointer that holds no live node. -/
def runCalls (m : Mem) (ll : Option linked_list) : List ListCall → Option (Mem × Option linked_list)
  | [] => some (m, ll)
  | c :: rest =>
    match runCall m ll c with
    | none => none
    | some (m1, ll1) => runCalls m1 ll1 rest

end LinkedList

open Elevator ElevatorState InputEvent OutputEvent
open LinkedList

/-! ## Theorems about `run` -/

theorem run_stuckData : run stuckData INPUT_NONE 0 = (OUTPUT_MOVING_UP, stuckData) := by
  decide

theorem runTrace_stuckData (n : Nat) :
    runTrace stuckData (List.replicate n (INPUT_NONE, 0))
      = (List.replicate n OUTPUT_MOVING_UP, stuckData) := by
  induction n with
  | zero => rfl
  | succ k ih =>
    simp only [List.replicate_succ, runTrace, run_stuckData, ih]

/-- C1: on the scenario of the claim (cabin idle at floor 0, `INPUT_FLOOR_BUTTON`
with floor 2 at the first tick, `INPUT_NONE` afterwards) `run` emits
`OUTPUT_MOVING_UP` at the first tick and again at each of the `n` later ticks,
whatever `n` is, and the cabin is still idle at floor 0 with the floor-2 request
pending and the timer back at 6: it never arrives and never opens the door. -/
theorem run_round_trip_never_arrives (n : Nat) :
    runTrace (initialData 0) ((INPUT_FLOOR_BUTTON, 2) :: List.replicate n (INPUT_NONE, 0))
      = (List.replicate (n + 1) OUTPUT_MOVING_UP, stuckData) := by
  have h1 : run (initialData 0) INPUT_FLOOR_BUTTON 2 = (OUTPUT_MOVING_UP, stuckData) := by
    decide
  simp only [runTrace, h1, runTrace_stuckData, List.replicate_succ]

/-- C2: starting a move from Idle leaves the state Idle.  With the cabin idle at
floor 0 and floor 2 requested, `run` emits `OUTPUT_MOVING_UP`, sets the target to
2 and the timer to `MOVE_TIME * 2`, but the state is still `IDLE`; with the cabin
idle at floor 5 and floor 2 requested it emits `OUTPUT_MOVING_DOWN`, sets the
target to 2 and the timer to `MOVE_TIME * 3`, and the state is still `IDLE`. -/
theorem run_idle_move_keeps_idle :
    run (idleWithRequest 0 2) INPUT_NONE 0
        = (OUTPUT_MOVING_UP,
            { idleWithRequest 0 2 with targetFloor := 2, timer := MOVE_TIME * 2, state := IDLE })
      ∧ run (idleWithRequest 5 2) INPUT_NONE 0
        = (OUTPUT_MOVING_DOWN,
            { idleWithRequest 5 2 with targetFloor := 2, timer := MOVE_TIME * 3, state := IDLE }) := by
  decide

/-- C3: no arrival.  In `MOVING_UP` at floor 0 with target 2 and timer 1, the
tick on which the timer reaches zero emits `OUTPUT_NOTHING` and changes the timer
only: the state is still `MOVING_UP` and the floor still 0.  The same holds in
`MOVING_DOWN` at floor 5 with target 2. -/
theorem run_moving_timer_zero_no_arrival :
    run (cabinIn MOVING_UP 0 2 1) INPUT_NONE 0 = (OUTPUT_NOTHING, cabinIn MOVING_UP 0 2 0)
      ∧ run (cabinIn MOVING_DOWN 5 2 1) INPUT_NONE 0
        = (OUTPUT_NOTHING, cabinIn MOVING_DOWN 5 2 0) := by
  decide

/-- C4: opening at the current floor keeps the request.  With the cabin idle at
floor 3, timer 0, and floor 3 the only request, `run` emits `OUTPUT_OPEN_DOOR`,
enters `DOOR_OPEN` with the timer at `DOOR_TIME`, and floor 3 is still requested. -/
theorem run_open_at_current_floor_keeps_request :
    run (idleWithRequest 3 3) INPUT_NONE 0
        = (OUTPUT_OPEN_DOOR,
            { idleWithRequest 3 3 with state := DOOR_OPEN, timer := DOOR_TIME })
      ∧ isRequested (run (idleWithRequest 3 3) INPUT_NONE 0).2 3 = true := by
  decide

/-- C5: a door-open command in Idle leaves the state Idle.  On the initial state
at floor 0, `run` with `INPUT_DOOR_OPEN` emits `OUTPUT_OPEN_DOOR`, sets the timer
to `DOOR_TIME` and clears `unhandledDoorOpen`, but the state is still `IDLE`. -/
theorem run_door_open_command_keeps_idle :
    run (initialData 0) INPUT_DOOR_OPEN 0
      = (OUTPUT_OPEN_DOOR, { initialData 0 with timer := DOOR_TIME, state := IDLE }) := by
  decide

/-- C6: the door closes one tick early and the close flag stays set.  In
`DOOR_OPEN` with the timer at `DOOR_TIME` and no close command, the first tick
already emits `OUTPUT_CLOSE_DOOR` and goes to `IDLE`, although the timer is 1 after
the per-tick decrement; with `INPUT_DOOR_CLOSE` the door closes and
`unhandledDoorClose` is still set afterwards. -/
theorem run_door_open_closes_early :
    (tickTimer (cabinIn DOOR_OPEN 0 0 DOOR_TIME)).timer = 1
      ∧ run (cabinIn DOOR_OPEN 0 0 DOOR_TIME) INPUT_NONE 0 = (OUTPUT_CLOSE_DOOR, cabinIn IDLE 0 0 0)
      ∧ run (cabinIn DOOR_OPEN 0 0 DOOR_TIME) INPUT_DOOR_CLOSE 0
        = (OUTPUT_CLOSE_DOOR, { cabinIn IDLE 0 0 1 with unhandledDoorClose := true }) := by
  decide

/-- C8: a request is removed on a tick that does not open the door.  From the
initial state at floor 0, a first call with `INPUT_DOOR_OPEN` leaves the cabin
idle with the timer at `DOOR_TIME`; the next call, with `INPUT_FLOOR_BUTTON` for
floor 0, has floor 0 requested after input folding, emits `OUTPUT_NOTHING`, stays
`IDLE`, and floor 0 is no longer requested afterwards. -/
theorem run_removes_request_without_opening :
    run (initialData 0) INPUT_DOOR_OPEN 0 = (OUTPUT_OPEN_DOOR, cabinIn IDLE 0 0 DOOR_TIME)
      ∧ isRequested (handleInput (cabinIn IDLE 0 0 DOOR_TIME) INPUT_FLOOR_BUTTON 0) 0 = true
      ∧ run (cabinIn IDLE 0 0 DOOR_TIME) INPUT_FLOOR_BUTTON 0 = (OUTPUT_NOTHING, cabinIn IDLE 0 0 1)
      ∧ isRequested (cabinIn IDLE 0 0 1) 0 = false := by
  decide

theorem handleInput_state (d : ElevatorData) (input : InputEvent) (inputFloor : Int) :
    (handleInput d input inputFloor).state = d.state
      ∧ (handleInput d input inputFloor).currentFloor = d.currentFloor
      ∧ (handleInput d input inputFloor).targetFloor = d.targetFloor
      ∧ (handleInput d input inputFloor).timer = d.timer := by
  cases input <;> simp only [handleInput] <;> (try split) <;> simp

theorem tickTimer_state (d : ElevatorData) :
    (tickTimer d).state = d.state ∧ (tickTimer d).currentFloor = d.currentFloor
      ∧ (tickTimer d).targetFloor = d.targetFloor := by
  unfold tickTimer; split <;> simp

theorem folded_state (d : ElevatorData) (input : InputEvent) (inputFloor : Int) :
    (tickTimer (handleInput d input inputFloor)).state = d.state
      ∧ (tickTimer (handleInput d input inputFloor)).currentFloor = d.currentFloor
      ∧ (tickTimer (handleInput d input inputFloor)).targetFloor = d.targetFloor := by
  obtain ⟨h1, h2, h3⟩ := tickTimer_state (handleInput d input inputFloor)
  obtain ⟨g1, g2, g3, _⟩ := handleInput_state d input inputFloor
  exact ⟨h1.trans g1, h2.trans g2, h3.trans g3⟩

theorem run_moving_up (d : ElevatorData) (input : InputEvent) (inputFloor : Int)
    (hs : d.state = MOVING_UP) :
    run d input inputFloor = (OUTPUT_NOTHING, tickTimer (handleInput d input inputFloor)) := by
  have h := (folded_state d input inputFloor).1
  rw [hs] at h
  simp only [run, h]

theorem run_moving_down (d : ElevatorData) (input : InputEvent) (inputFloor : Int)
    (hs : d.state = MOVING_DOWN) :
    run d input inputFloor = (OUTPUT_NOTHING, tickTimer (handleInput d input inputFloor)) := by
  have h := (folded_state d input inputFloor).1
  rw [hs] at h
  simp only [run, h]

/-- C9: a door-open command during movement has no immediate effect.  In
`MOVING_UP`, whatever the timer (so in particular while it is still above zero
after the decrement), `run` with `INPUT_DOOR_OPEN` emits `OUTPUT_NOTHING`, stays
in `MOVING_UP` and keeps `currentFloor` and `targetFloor`; and from any state, a
call of `run` that ends in `DOOR_OPEN` without having started there started in
`IDLE`. -/
theorem run_door_open_while_moving_up (d : ElevatorData) (inputFloor : Int)
    (hs : d.state = MOVING_UP) :
    (run d INPUT_DOOR_OPEN inputFloor).1 = OUTPUT_NOTHING
      ∧ (run d INPUT_DOOR_OPEN inputFloor).2.state = MOVING_UP
      ∧ (run d INPUT_DOOR_OPEN inputFloor).2.currentFloor = d.currentFloor
      ∧ (run d INPUT_DOOR_OPEN inputFloor).2.targetFloor = d.targetFloor
      ∧ ∀ (d0 : ElevatorData) (input : InputEvent) (f : Int),
          (run d0 input f).2.state = DOOR_OPEN → d0.state ≠ DOOR_OPEN → d0.state = IDLE := by
  have hf := folded_state d INPUT_DOOR_OPEN inputFloor
  rw [run_moving_up d INPUT_DOOR_OPEN inputFloor hs]
  refine ⟨rfl, hf.1.trans hs, hf.2.1, hf.2.2, ?_⟩
  intro d0 input f hpost hpre
  have h0 := (folded_state d0 input f).1
  cases hd : d0.state with
  | IDLE => rfl
  | MOVING_UP =>
    rw [run_moving_up d0 input f hd, show (OUTPUT_NOTHING, tickTimer (handleInput d0 input f)).2.state
      = (tickTimer (handleInput d0 input f)).state from rfl, h0, hd] at hpost
    cases hpost
  | MOVING_DOWN =>
    rw [run_moving_down d0 input f hd, show (OUTPUT_NOTHING, tickTimer (handleInput d0 input f)).2.state
      = (tickTimer (handleInput d0 input f)).state from rfl, h0, hd] at hpost
    cases hpost
  | DOOR_OPEN => exact absurd hd hpre

/-- C9, instance: a cabin in `MOVING_UP` from floor 0 to floor 2 with the timer
at 5, which is 4 after the decrement. -/
theorem run_door_open_while_moving_up_witness :
    (cabinIn MOVING_UP 0 2 5).state = MOVING_UP ∧ (tickTimer (cabinIn MOVING_UP 0 2 5)).timer = 4
      ∧ (run (cabinIn MOVING_UP 0 2 5) INPUT_DOOR_OPEN 0).1 = OUTPUT_NOTHING
      ∧ (run (cabinIn MOVING_UP 0 2 5) INPUT_DOOR_OPEN 0).2.state = MOVING_UP
      ∧ (run (cabinIn MOVING_UP 0 2 5) INPUT_DOOR_OPEN 0).2.currentFloor = 0
      ∧ (run (cabinIn MOVING_UP 0 2 5) INPUT_DOOR_OPEN 0).2.targetFloor = 2 :=
  have h := run_door_open_while_moving_up (cabinIn MOVING_UP 0 2 5) 0 (by decide)
  ⟨by decide, by decide, h.1, h.2.1, h.2.2.1, h.2.2.2.1⟩

/-- Whenever a call of `run` removes a request, that call emits `OUTPUT_NOTHING`. -/
theorem run_request_removed_output (d : ElevatorData) (input : InputEvent) (inputFloor f : Int)
    (hbefore : isRequested (handleInput d input inputFloor) f = true)
    (hafter : isRequested (run d input inputFloor).2 f = false) :
    (run d input inputFloor).1 = OUTPUT_NOTHING := by
  have hreq : (tickTimer (handleInput d input inputFloor)).requests
      = (handleInput d input inputFloor).requests := by
    unfold tickTimer; split <;> rfl
  have key : ∀ d3 : ElevatorData, isRequested d3 f = false →
      d3.requests = (tickTimer (handleInput d input inputFloor)).requests → False := by
    intro d3 h3 hr
    unfold isRequested at hbefore h3
    rw [hr, hreq, hbefore] at h3
    cases h3
  revert hafter
  unfold run
  simp only []
  generalize tickTimer (handleInput d input inputFloor) = d2 at key ⊢
  cases hst : d2.state with
  | IDLE =>
    simp only []
    split
    · intro hafter
      exact (key _ hafter rfl).elim
    · split
      · split
        · intro _; rfl
        · split
          · split
            · intro hafter
              exact (key _ hafter rfl).elim
            · rename_i hne
              intro _
              simp only [hne, if_false]
          · split
            · intro hafter
              exact (key _ hafter rfl).elim
            · split
              · intro hafter
                exact (key _ hafter rfl).elim
              · intro _; rfl
      · intro _; rfl
  | MOVING_UP => intro _; rfl
  | MOVING_DOWN => intro _; rfl
  | DOOR_OPEN =>
    simp only []
    split
    · intro hafter
      exact (key _ hafter rfl).elim
    · split
      · intro hafter
        exact (key _ hafter rfl).elim
      · intro _; rfl

theorem removeRequest_state (d : ElevatorData) (floor : Int) :
    (removeRequest d floor).state = d.state ∧ (removeRequest d floor).timer = d.timer
      ∧ (removeRequest d floor).currentFloor = d.currentFloor
      ∧ (removeRequest d floor).targetFloor = d.targetFloor := by
  unfold removeRequest; split <;> simp

/-- From `IDLE`, a call of `run` ends in `IDLE`, or in `DOOR_OPEN` with the timer
at `DOOR_TIME`. -/
theorem run_idle_post (d : ElevatorData) (input : InputEvent) (inputFloor : Int)
    (hs : d.state = IDLE) :
    (run d input inputFloor).2.state = IDLE
      ∨ ((run d input inputFloor).2.state = DOOR_OPEN
          ∧ (run d input inputFloor).2.timer = DOOR_TIME) := by
  have h := (folded_state d input inputFloor).1
  rw [hs] at h
  unfold run
  simp only []
  generalize tickTimer (handleInput d input inputFloor) = d2 at h ⊢
  simp only [h]
  split
  · exact Or.inl rfl
  · split
    · split
      · exact Or.inl h
      · split
        · split
          · exact Or.inr ⟨rfl, rfl⟩
          · exact Or.inl (removeRequest_state _ _).1
        · split
          · exact Or.inl rfl
          · split
            · exact Or.inl rfl
            · exact Or.inl rfl
    · exact Or.inl h

/-- From `DOOR_OPEN` with the timer at `DOOR_TIME`, a call of `run` ends in `IDLE`. -/
theorem run_door_open_post (d : ElevatorData) (input : InputEvent) (inputFloor : Int)
    (hs : d.state = DOOR_OPEN) (ht : d.timer = DOOR_TIME) :
    (run d input inputFloor).2.state = IDLE := by
  have h := (folded_state d input inputFloor).1
  rw [hs] at h
  have htick : (tickTimer (handleInput d input inputFloor)).timer = 1 := by
    have h1 := (handleInput_state d input inputFloor).2.2.2
    unfold tickTimer
    rw [h1, ht]
    simp [DOOR_TIME]
  unfold run
  simp only []
  generalize tickTimer (handleInput d input inputFloor) = d2 at h htick ⊢
  simp only [h]
  split
  · rfl
  · split
    · rfl
    · rename_i hpos
      simp [htick] at hpos

/-- The states met from the initial state: a call of `run` from `IDLE`, or from
`DOOR_OPEN` with the timer at `DOOR_TIME`, ends in one of these two again. -/
theorem run_rest_invariant (d : ElevatorData) (input : InputEvent) (inputFloor : Int)
    (h : d.state = IDLE ∨ (d.state = DOOR_OPEN ∧ d.timer = DOOR_TIME)) :
    (run d input inputFloor).2.state = IDLE
      ∨ ((run d input inputFloor).2.state = DOOR_OPEN
          ∧ (run d input inputFloor).2.timer = DOOR_TIME) := by
  rcases h with h | ⟨h, ht⟩
  · exact run_idle_post d input inputFloor h
  · exact Or.inl (run_door_open_post d input inputFloor h ht)

theorem runTrace_rest_invariant (inputs : List (InputEvent × Int)) (d : ElevatorData)
    (h : d.state = IDLE ∨ (d.state = DOOR_OPEN ∧ d.timer = DOOR_TIME)) :
    (runTrace d inputs).2.state = IDLE
      ∨ ((runTrace d inputs).2.state = DOOR_OPEN
          ∧ (runTrace d inputs).2.timer = DOOR_TIME) := by
  induction inputs generalizing d with
  | nil => exact h
  | cons x rest ih =>
    obtain ⟨input, inputFloor⟩ := x
    simp only [runTrace]
    exact ih _ (run_rest_invariant d input inputFloor h)

/-- C14: `currentFloor` changes only on arrival.  No call of `run` changes
`currentFloor`, whatever the state and the input; so a tick on which it differs
from before does not exist outside an arrival, and in every tick that is not an
arrival it is unchanged. -/
theorem run_currentFloor_unchanged (d : ElevatorData) (input : InputEvent) (inputFloor : Int) :
    (run d input inputFloor).2.currentFloor = d.currentFloor := by
  have h := (folded_state d input inputFloor).2.1
  unfold run
  simp only []
  generalize tickTimer (handleInput d input inputFloor) = d2 at h ⊢
  cases hst : d2.state with
  | IDLE =>
    simp only []
    split
    · exact h
    · split
      · split
        · exact h
        · split
          · split
            · exact h
            · exact (removeRequest_state _ _).2.2.1.trans h
          · split
            · exact h
            · split
              · exact h
              · exact h
      · exact h
  | MOVING_UP => exact h
  | MOVING_DOWN => exact h
  | DOOR_OPEN =>
    simp only []
    split
    · exact h
    · split
      · exact h
      · exact h

/-- C15: the timer is positive in every timed mode.  In every state reached from
an initial state (idle, timer 0, no request, no pending door command) by any
sequence of calls of `run`, with any inputs, a state among `MOVING_UP`,
`MOVING_DOWN`, `DOOR_OPEN` has a timer above zero. -/
theorem run_timed_mode_timer_positive (d0 : ElevatorData) (inputs : List (InputEvent × Int))
    (h0 : isInitial d0)
    (hm : (runTrace d0 inputs).2.state = MOVING_UP ∨ (runTrace d0 inputs).2.state = MOVING_DOWN
      ∨ (runTrace d0 inputs).2.state = DOOR_OPEN) :
    0 < (runTrace d0 inputs).2.timer := by
  rcases runTrace_rest_invariant inputs d0 (Or.inl h0.1) with h | ⟨_, ht⟩
  · rw [h] at hm
    rcases hm with hm | hm | hm <;> cases hm
  · rw [ht]
    decide

/-- C15, instance: from the initial state at floor 3, a floor-button call for floor
3 opens the door; the state is `DOOR_OPEN` and the timer is 2. -/
theorem run_timed_mode_timer_positive_witness :
    isInitial (initialData 3)
      ∧ (runTrace (initialData 3) [(INPUT_FLOOR_BUTTON, 3)]).2.state = DOOR_OPEN
      ∧ (runTrace (initialData 3) [(INPUT_FLOOR_BUTTON, 3)]).2.timer = 2
      ∧ 0 < (runTrace (initialData 3) [(INPUT_FLOOR_BUTTON, 3)]).2.timer :=
  ⟨by decide, by decide, by decide,
    run_timed_mode_timer_positive (initialData 3) [(INPUT_FLOOR_BUTTON, 3)] (by decide)
      (Or.inr (Or.inr (by decide)))⟩

theorem directionOk_of_rest (d : ElevatorData) (h : d.state = IDLE ∨ d.state = DOOR_OPEN) :
    directionOk d := by
  constructor <;> intro hu <;> rw [hu] at h <;> rcases h with h | h <;> cases h

/-- C16: the direction invariant.  Every state reached from an initial state by
any sequence of calls of `run` satisfies `directionOk` (moving up implies the
target is above the current floor, moving down implies it is below), and a single
call of `run` from any state that satisfies `directionOk` ends in a state that
satisfies it. -/
theorem run_direction_invariant :
    (∀ (d0 : ElevatorData) (inputs : List (InputEvent × Int)),
        isInitial d0 → directionOk (runTrace d0 inputs).2)
      ∧ ∀ (d : ElevatorData) (input : InputEvent) (inputFloor : Int),
          directionOk d → directionOk (run d input inputFloor).2 := by
  constructor
  · intro d0 inputs h0
    rcases runTrace_rest_invariant inputs d0 (Or.inl h0.1) with h | ⟨h, _⟩
    · exact directionOk_of_rest _ (Or.inl h)
    · exact directionOk_of_rest _ (Or.inr h)
  · intro d input inputFloor hd
    have hf := folded_state d input inputFloor
    cases hs : d.state with
    | IDLE =>
      rcases run_idle_post d input inputFloor hs with h | ⟨h, _⟩
      · exact directionOk_of_rest _ (Or.inl h)
      · exact directionOk_of_rest _ (Or.inr h)
    | MOVING_UP =>
      rw [run_moving_up d input inputFloor hs]
      refine ⟨fun _ => ?_, fun hu => ?_⟩
      · show (tickTimer (handleInput d input inputFloor)).targetFloor
          > (tickTimer (handleInput d input inputFloor)).currentFloor
        rw [hf.2.1, hf.2.2]
        exact hd.1 hs
      · have : (tickTimer (handleInput d input inputFloor)).state = MOVING_DOWN := hu
        rw [hf.1, hs] at this
        cases this
    | MOVING_DOWN =>
      rw [run_moving_down d input inputFloor hs]
      refine ⟨fun hu => ?_, fun _ => ?_⟩
      · have : (tickTimer (handleInput d input inputFloor)).state = MOVING_UP := hu
        rw [hf.1, hs] at this
        cases this
      · show (tickTimer (handleInput d input inputFloor)).targetFloor
          < (tickTimer (handleInput d input inputFloor)).currentFloor
        rw [hf.2.1, hf.2.2]
        exact hd.2 hs
    | DOOR_OPEN =>
      have hpost : (run d input inputFloor).2.state = IDLE
          ∨ (run d input inputFloor).2.state = DOOR_OPEN := by
        have h := hf.1
        rw [hs] at h
        unfold run
        simp only []
        generalize tickTimer (handleInput d input inputFloor) = d2 at h ⊢
        simp only [h]
        split
        · exact Or.inl rfl
        · split
          · exact Or.inl rfl
          · exact Or.inr rfl
      rcases hpost with h | h
      · exact directionOk_of_rest _ (Or.inl h)
      · exact directionOk_of_rest _ (Or.inr h)

/-- C16, instances: a cabin in `MOVING_UP` from floor 0 to floor 2 satisfies
`directionOk` and still does after a call of `run`, in `MOVING_UP` with the target
above the floor; and the state reached from the initial state at floor 3 by a
floor-button call for floor 3 satisfies it. -/
theorem run_direction_invariant_witness :
    directionOk (cabinIn MOVING_UP 0 2 5)
      ∧ (run (cabinIn MOVING_UP 0 2 5) INPUT_NONE 0).2.state = MOVING_UP
      ∧ directionOk (run (cabinIn MOVING_UP 0 2 5) INPUT_NONE 0).2
      ∧ directionOk (runTrace (initialData 3) [(INPUT_FLOOR_BUTTON, 3)]).2 :=
  ⟨by decide, by decide,
    run_direction_invariant.2 (cabinIn MOVING_UP 0 2 5) INPUT_NONE 0 (by decide),
    run_direction_invariant.1 (initialData 3) [(INPUT_FLOOR_BUTTON, 3)] (by decide)⟩

/-- C10: `linked_list_insert` at index 0 of a non-empty list fails.  The list
`[1]`, obtained from the empty list by `linked_list_insert_front`, has size 1;
`linked_list_insert` with index 0 and value 7 returns `false` and leaves the
memory and the header as they were, so the list is still `[1]`. -/
theorem linked_list_insert_index_zero_fails :
    linked_list_insert_front emptyMem (some emptyList) 1
        = some (true, singletonMem, some singletonList)
      ∧ contents singletonMem singletonList = some [1]
      ∧ linked_list_insert singletonMem (some singletonList) 0 7
        = some (false, singletonMem, some singletonList) := by
  decide

theorem node_at_lt {m : Mem} {a : Nat} {nd : node} (h : m.node_at a = some nd) :
    a < m.nodes.length := by
  unfold Mem.node_at at h
  rw [Option.join_eq_some, List.getElem?_eq_some] at h
  exact h.1

theorem node_at_new_node_old (m : Mem) (nd : node) {a : Nat} (h : a < m.nodes.length) :
    (m.new_node nd).2.node_at a = m.node_at a := by
  simp only [Mem.node_at, Mem.new_node, List.getElem?_append_left h]

theorem node_at_new_node_new (m : Mem) (nd : node) :
    (m.new_node nd).2.node_at (m.new_node nd).1 = some nd := by
  simp [Mem.node_at, Mem.new_node]

theorem node_at_write_same (m : Mem) (nd : node) {a : Nat} (h : a < m.nodes.length) :
    (m.write a nd).node_at a = some nd := by
  simp [Mem.node_at, Mem.write, List.getElem?_set, h]

theorem node_at_write_other (m : Mem) (nd : node) {a b : Nat} (h : a ≠ b) :
    (m.write a nd).node_at b = m.node_at b := by
  simp [Mem.node_at, Mem.write, List.getElem?_set, h]

theorem linked_nil (m : Mem) (p q : Option Nat) : linked m p [] q = true ↔ p = q := by
  simp [linked]

theorem linked_cons (m : Mem) (p q : Option Nat) (a v : Nat) (rest : List (Nat × Nat)) :
    linked m p ((a, v) :: rest) q = true
      ↔ p = some a ∧ ∃ nxt, m.node_at a = some { data := v, next := nxt }
          ∧ linked m nxt rest q = true := by
  simp only [linked, Bool.and_eq_true, beq_iff_eq]
  constructor
  · rintro ⟨hp, h⟩
    refine ⟨hp, ?_⟩
    cases hn : m.node_at a with
    | none => simp [hn] at h
    | some nd =>
      simp only [hn, Bool.and_eq_true, beq_iff_eq] at h
      obtain ⟨hv, hl⟩ := h
      refine ⟨nd.next, ?_, hl⟩
      cases nd
      simp_all
  · rintro ⟨hp, nxt, hn, hl⟩
    refine ⟨hp, ?_⟩
    simp [hn, hl]

theorem linked_append (m : Mem) (xs ys : List (Nat × Nat)) (p q : Option Nat) :
    linked m p (xs ++ ys) q = true
      ↔ ∃ r, linked m p xs r = true ∧ linked m r ys q = true := by
  induction xs generalizing p with
  | nil => simp [linked_nil]
  | cons x rest ih =>
    obtain ⟨a, v⟩ := x
    simp only [List.cons_append, linked_cons, ih]
    constructor
    · rintro ⟨hp, nxt, hn, r, h1, h2⟩
      exact ⟨r, ⟨hp, nxt, hn, h1⟩, h2⟩
    · rintro ⟨r, ⟨hp, nxt, hn, h1⟩, h2⟩
      exact ⟨hp, nxt, hn, r, h1, h2⟩

theorem linked_congr {m1 m2 : Mem} (hn : ∀ a, m1.node_at a = m2.node_at a)
    (cells : List (Nat × Nat)) (p q : Option Nat) :
    linked m1 p cells q = linked m2 p cells q := by
  induction cells generalizing p with
  | nil => rfl
  | cons x rest ih =>
    obtain ⟨a, v⟩ := x
    simp only [linked, hn a]
    cases m2.node_at a with
    | none => rfl
    | some nd => simp only [ih]

theorem linked_addr_lt {m : Mem} {cells : List (Nat × Nat)} {p q : Option Nat}
    (h : linked m p cells q = true) : ∀ a ∈ cells.map Prod.fst, a < m.nodes.length := by
  induction cells generalizing p with
  | nil => simp
  | cons x rest ih =>
    obtain ⟨a, v⟩ := x
    rw [linked_cons] at h
    obtain ⟨_, nxt, hn, hl⟩ := h
    intro b hb
    simp only [List.map_cons, List.mem_cons] at hb
    rcases hb with hb | hb
    · rw [hb]; exact node_at_lt hn
    · exact ih hl b hb

/-- A chain is untouched by a change of memory that keeps all its nodes. -/
theorem linked_frame {m1 m2 : Mem} {cells : List (Nat × Nat)} {p q : Option Nat}
    (hn : ∀ a ∈ cells.map Prod.fst, m2.node_at a = m1.node_at a)
    (h : linked m1 p cells q = true) : linked m2 p cells q = true := by
  induction cells generalizing p with
  | nil => simpa [linked_nil] using h
  | cons x rest ih =>
    obtain ⟨a, v⟩ := x
    rw [linked_cons] at h ⊢
    obtain ⟨hp, nxt, hna, hl⟩ := h
    refine ⟨hp, nxt, ?_, ?_⟩
    · rw [hn a (by simp), hna]
    · exact ih (fun b hb => hn b (by simp only [List.map_cons, List.mem_cons]; exact Or.inr hb)) hl

theorem advance_linked {m : Mem} {xs : List (Nat × Nat)} {p r : Option Nat}
    (h : linked m p xs r = true) (i : Nat) :
    advance m xs.length p i = some (r, i + xs.length) := by
  induction xs generalizing p i with
  | nil =>
    rw [linked_nil] at h
    simp [advance, h]
  | cons x rest ih =>
    obtain ⟨a, v⟩ := x
    rw [linked_cons] at h
    obtain ⟨hp, nxt, hn, hl⟩ := h
    subst hp
    simp only [List.length_cons, advance, hn]
    rw [ih hl (i + 1)]
    congr 2
    omega

theorem malloc_nodes (m : Mem) : m.malloc.2.nodes = m.nodes := by
  unfold Mem.malloc; split <;> rfl

theorem malloc_fptrs (m : Mem) :
    m.malloc.2.malloc_fptr = m.malloc_fptr ∧ m.malloc.2.free_fptr = m.free_fptr := by
  unfold Mem.malloc; split <;> exact ⟨rfl, rfl⟩

theorem malloc_node_at (m : Mem) (a : Nat) : m.malloc.2.node_at a = m.node_at a := by
  simp only [Mem.node_at, malloc_nodes]

/-- On a well-formed list with the allocator registered and the allocation
succeeding, `linked_list_create_iterator` at the position of a node yields an
iterator on that node, with its index and its value. -/
theorem create_iterator_at_node {m : Mem} {l : linked_list} {pre post : List (Nat × Nat)}
    {c cv : Nat} (hw : wellFormed m l (pre ++ (c, cv) :: post))
    (hm : m.malloc_fptr = true) (ha : m.malloc.1 = true) :
    linked_list_create_iterator m (some l) pre.length
      = some (m.malloc.2,
          some { current_node := some c, current_index := pre.length, data := cv }) := by
  obtain ⟨hl, _, _, hs, _⟩ := hw
  rw [linked_congr (fun a => (malloc_node_at m a).symm), linked_append] at hl
  obtain ⟨r, h1, h2⟩ := hl
  have hadv := advance_linked h1 0
  rw [linked_cons] at h2
  obtain ⟨hr, nxt, hn, _⟩ := h2
  subst hr
  have hsz : ¬ l.size < pre.length := by
    rw [hs, List.length_append, List.length_cons]; omega
  have hz : ¬ l.size = 0 := by
    rw [hs, List.length_append, List.length_cons]; omega
  simp [linked_list_create_iterator, hm, ha, hsz, hz, hadv, hn]

theorem SIZE_MAX_eq : SIZE_MAX = 18446744073709551615 := by
  decide

theorem linked_head_ne_none {m : Mem} {x : Nat × Nat} {xs : List (Nat × Nat)}
    {p q : Option Nat} (h : linked m p (x :: xs) q = true) : p = some x.1 := by
  obtain ⟨a, v⟩ := x
  rw [linked_cons] at h
  exact h.1

theorem linked_none_nil {m : Mem} {cells : List (Nat × Nat)} {q : Option Nat}
    (h : linked m none cells q = true) : cells = [] := by
  cases cells with
  | nil => rfl
  | cons x xs => exact absurd (linked_head_ne_none h) (by simp)

/-- Inserting after a node.  On a well-formed list with fewer than `SIZE_MAX`
nodes, the allocator registered and its next two allocations succeeding,
`linked_list_insert` at the index just after the node `(c, cv)` returns `true`
and the list is well formed again, with the new value in a new node placed
directly after `(c, cv)`. -/
theorem linked_list_insert_after_node {m : Mem} {l : linked_list}
    {pre post : List (Nat × Nat)} {c cv : Nat} (d : Nat)
    (hw : wellFormed m l (pre ++ (c, cv) :: post))
    (hm : m.malloc_fptr = true) (ha1 : m.malloc.1 = true) (ha2 : m.malloc.2.malloc.1 = true)
    (hlen : (pre ++ (c, cv) :: post).length < SIZE_MAX) :
    ∃ m1 l1, linked_list_insert m (some l) (pre.length + 1) d = some (true, m1, some l1)
      ∧ wellFormed m1 l1 (pre ++ (c, cv) :: (m.nodes.length, d) :: post) := by
  have hit := create_iterator_at_node hw hm ha1
  obtain ⟨hl, hnd, ht, hs, _⟩ := hw
  have hlt := linked_addr_lt hl
  have hS := SIZE_MAX_eq
  simp only [List.length_append, List.length_cons] at hlen hs
  rw [linked_append] at hl
  obtain ⟨r, h1, h2⟩ := hl
  have hr := linked_head_ne_none h2
  simp only at hr
  subst hr
  rw [linked_cons] at h2
  obtain ⟨_, nxt, hn, h3⟩ := h2
  have hhead : l.head ≠ none := by
    intro h0
    rw [h0] at h1
    have := linked_none_nil h1
    subst this
    simp [linked_nil] at h1
  have hidx : (pre.length + 1 + SIZE_MAX) % 2 ^ 64 = pre.length := by omega
  have hsz : ¬ l.size < pre.length + 1 := by omega
  have hn2 : m.malloc.2.malloc.2.node_at c = some { data := cv, next := nxt } := by
    rw [malloc_node_at, malloc_node_at, hn]
  have hlen2 : m.malloc.2.malloc.2.nodes.length = m.nodes.length := by
    rw [malloc_nodes, malloc_nodes]
  have hc : c < m.nodes.length := node_at_lt hn
  have hins : linked_list_insert m (some l) (pre.length + 1) d
      = some (true,
          (m.malloc.2.malloc.2.new_node { data := d, next := nxt }).2.write c
            { data := cv, next := some m.nodes.length },
          some { head := l.head, tail := if nxt = none then some m.nodes.length else l.tail,
                 size := (l.size + 1) % 2 ^ 64 }) := by
    simp only [linked_list_insert, hm, hsz, hhead, hidx, hit, ha2, hn2, Bool.not_true,
      decide_False, Bool.or_false, Bool.false_eq_true, if_false]
    simp only [Nat.add_one_ne_zero, if_false]
    simp only [Mem.new_node, hlen2]
    by_cases hnx : nxt = none <;> simp [hnx]
  have hpre : ∀ a ∈ pre.map Prod.fst, a ≠ c ∧ a < m.nodes.length := by
    intro a ha
    have hmem : a ∈ (pre ++ (c, cv) :: post).map Prod.fst := by
      simp only [List.map_append, List.mem_append]
      exact Or.inl ha
    refine ⟨?_, hlt a hmem⟩
    rintro rfl
    simp only [List.map_append, List.map_cons, List.nodup_append, List.nodup_cons] at hnd
    exact hnd.2.2 ha (List.mem_cons_self _ _)
  have hpost : ∀ a ∈ post.map Prod.fst, a ≠ c ∧ a < m.nodes.length := by
    intro a ha
    have hmem : a ∈ (pre ++ (c, cv) :: post).map Prod.fst := by
      simp only [List.map_append, List.map_cons, List.mem_append, List.mem_cons]
      exact Or.inr (Or.inr ha)
    refine ⟨?_, hlt a hmem⟩
    rintro rfl
    simp only [List.map_append, List.map_cons, List.nodup_append, List.nodup_cons] at hnd
    exact hnd.2.1.1 ha
  have hother : ∀ a, a ≠ c → a < m.nodes.length →
      ((m.malloc.2.malloc.2.new_node { data := d, next := nxt }).2.write c
        { data := cv, next := some m.nodes.length }).node_at a = m.node_at a := by
    intro a hac ha
    rw [node_at_write_other _ _ (Ne.symm hac), node_at_new_node_old _ _ (by rw [hlen2]; exact ha),
      malloc_node_at, malloc_node_at]
  have hatc : ((m.malloc.2.malloc.2.new_node { data := d, next := nxt }).2.write c
      { data := cv, next := some m.nodes.length }).node_at c
        = some { data := cv, next := some m.nodes.length } := by
    apply node_at_write_same
    simp only [Mem.new_node, List.length_append, List.length_singleton, hlen2]
    omega
  have hatn : ((m.malloc.2.malloc.2.new_node { data := d, next := nxt }).2.write c
      { data := cv, next := some m.nodes.length }).node_at m.nodes.length
        = some { data := d, next := nxt } := by
    rw [node_at_write_other _ _ (Nat.ne_of_lt hc)]
    have := node_at_new_node_new m.malloc.2.malloc.2 { data := d, next := nxt }
    rw [show (m.malloc.2.malloc.2.new_node { data := d, next := nxt }).1 = m.nodes.length
      from hlen2] at this
    exact this
  refine ⟨_, _, hins, ?_⟩
  unfold wellFormed
  refine ⟨?_, ?_, ?_, ?_, ?_⟩
  · rw [linked_append]
    refine ⟨some c, linked_frame (fun a ha => hother a (hpre a ha).1 (hpre a ha).2) h1, ?_⟩
    rw [linked_cons]
    refine ⟨rfl, some m.nodes.length, hatc, ?_⟩
    rw [linked_cons]
    exact ⟨rfl, nxt, hatn,
      linked_frame (fun a ha => hother a (hpost a ha).1 (hpost a ha).2) h3⟩
  · have hNpre : m.nodes.length ∉ pre.map Prod.fst := fun h => Nat.lt_irrefl _ (hpre _ h).2
    have hNpost : m.nodes.length ∉ post.map Prod.fst := fun h => Nat.lt_irrefl _ (hpost _ h).2
    simp only [List.map_append, List.map_cons, List.nodup_append, List.nodup_cons,
      List.mem_cons, List.disjoint_cons_right, not_or] at hnd ⊢
    obtain ⟨hp, ⟨hcp, hpo⟩, hcpre, hdis⟩ := hnd
    exact ⟨hp, ⟨⟨Nat.ne_of_lt hc, hcp⟩, hNpost, hpo⟩, hcpre, hNpre, hdis⟩
  · cases post with
    | nil =>
      rw [linked_nil] at h3
      simp [h3, List.getLast?_append]
    | cons y ys =>
      have hy := linked_head_ne_none h3
      simp only [hy, if_false, ht]
      simp [List.getLast?_append, List.getLast?_cons_cons]
  · simp only [List.length_append, List.length_cons, hs]
    omega
  · simp only [List.length_append, List.length_cons]
    omega

/-- An index past the size is rejected and nothing changes. -/
theorem linked_list_insert_past_size (m : Mem) (l : linked_list) (index d : Nat)
    (h : l.size < index) :
    linked_list_insert m (some l) index d = some (false, m, some l) := by
  simp [linked_list_insert, h]

/-- Index 0 on any well-formed list that is not empty is rejected and nothing
changes: the position `index - 1` handed to `linked_list_create_iterator` wraps
to `SIZE_MAX`, which is past the size. -/
theorem linked_list_insert_zero_nonempty {m : Mem} {l : linked_list} {x : Nat × Nat}
    {xs : List (Nat × Nat)} (d : Nat) (hw : wellFormed m l (x :: xs))
    (hlen : (x :: xs).length < SIZE_MAX) :
    linked_list_insert m (some l) 0 d = some (false, m, some l) := by
  obtain ⟨hl, _, _, hs, _⟩ := hw
  have hh := linked_head_ne_none hl
  have hS := SIZE_MAX_eq
  have hlt : l.size < SIZE_MAX := by rw [hs]; exact hlen
  have hidx : SIZE_MAX % 18446744073709551616 = SIZE_MAX := by omega
  cases hmf : m.malloc_fptr with
  | false => simp [linked_list_insert, hmf]
  | true => simp [linked_list_insert, linked_list_create_iterator, hmf, hh, hidx, hlt]

/-- Index 0 on the empty list goes through `linked_list_insert_front`: with the
allocator registered and the allocation succeeding the call returns `true` and
the list holds the one new node. -/
theorem linked_list_insert_empty {m : Mem} {l : linked_list} (d : Nat)
    (hw : wellFormed m l []) (hm : m.malloc_fptr = true) (ha : m.malloc.1 = true) :
    ∃ m1 l1, linked_list_insert m (some l) 0 d = some (true, m1, some l1)
      ∧ wellFormed m1 l1 [(m.nodes.length, d)] := by
  obtain ⟨hl, _, ht, hs, _⟩ := hw
  rw [linked_nil] at hl
  simp only [List.map_nil, List.getLast?_nil] at ht
  simp only [List.length_nil] at hs
  have hlen : m.malloc.2.nodes.length = m.nodes.length := by rw [malloc_nodes]
  refine ⟨(m.malloc.2.new_node { data := d, next := none }).2,
    { head := some m.nodes.length, tail := some m.nodes.length, size := 1 }, ?_, ?_⟩
  · simp [linked_list_insert, linked_list_insert_front, hm, ha, hl, ht, hs, Mem.new_node, hlen]
  · unfold wellFormed
    have hat := node_at_new_node_new m.malloc.2 { data := d, next := none }
    rw [show (m.malloc.2.new_node { data := d, next := none }).1 = m.nodes.length from hlen] at hat
    refine ⟨?_, by simp, by simp, by simp, by simp [SIZE_MAX_eq]⟩
    rw [linked_cons]
    exact ⟨rfl, none, hat, by simp [linked_nil]⟩

/-- A chain without a repeated address has at most as many nodes as the store
has cells. -/
theorem linked_length_le {m : Mem} {cells : List (Nat × Nat)} {p q : Option Nat}
    (h : linked m p cells q = true) (hnd : (cells.map Prod.fst).Nodup) :
    cells.length ≤ m.nodes.length := by
  have hsub : cells.map Prod.fst ⊆ List.range m.nodes.length := by
    intro a ha
    exact List.mem_range.mpr (linked_addr_lt h a ha)
  have := (List.subperm_of_subset hnd hsub).length_le
  simpa using this

theorem chain_linked {m : Mem} {cells : List (Nat × Nat)} {p : Option Nat}
    (h : linked m p cells none = true) (fuel : Nat) (hf : cells.length ≤ fuel) :
    chain m fuel p = some (cells.map Prod.snd) := by
  induction cells generalizing p fuel with
  | nil =>
    rw [linked_nil] at h
    subst h
    cases fuel <;> rfl
  | cons x rest ih =>
    obtain ⟨a, v⟩ := x
    rw [linked_cons] at h
    obtain ⟨hp, nxt, hn, hl⟩ := h
    subst hp
    cases fuel with
    | zero => simp at hf
    | succ k =>
      simp only [List.length_cons, Nat.add_le_add_iff_right] at hf
      simp [chain, hn, ih hl k hf]

/-- The sequence read from `head` of a well-formed list is the sequence of the
values of its nodes. -/
theorem contents_wellFormed {m : Mem} {l : linked_list} {cells : List (Nat × Nat)}
    (hw : wellFormed m l cells) : contents m l = some (cells.map Prod.snd) :=
  chain_linked hw.1 _ (linked_length_le hw.1 hw.2.1)

theorem find_loop_linked {m : Mem} {cells : List (Nat × Nat)} {p : Option Nat} (d : Nat)
    (h : linked m p cells none = true) (fuel current_index : Nat)
    (hf : cells.length ≤ fuel) (hb : current_index + cells.length ≤ SIZE_MAX) :
    ∃ r, find_loop m d fuel p current_index = some r
      ∧ ((d ∉ cells.map Prod.snd ∧ r = SIZE_MAX)
        ∨ ∃ i, (cells.map Prod.snd)[i]? = some d
            ∧ (∀ j, j < i → (cells.map Prod.snd)[j]? ≠ some d) ∧ r = current_index + i) := by
  induction cells generalizing p fuel current_index with
  | nil =>
    rw [linked_nil] at h
    subst h
    refine ⟨SIZE_MAX, ?_, Or.inl ⟨by simp, rfl⟩⟩
    cases fuel <;> rfl
  | cons x rest ih =>
    obtain ⟨a, v⟩ := x
    rw [linked_cons] at h
    obtain ⟨hp, nxt, hn, hl⟩ := h
    subst hp
    have hS := SIZE_MAX_eq
    simp only [List.length_cons] at hf hb
    cases fuel with
    | zero => omega
    | succ k =>
      by_cases hv : v = d
      · refine ⟨current_index, ?_, Or.inr ⟨0, ?_, ?_, rfl⟩⟩
        · simp [find_loop, hn, hv]
        · simp [hv]
        · intro j hj; omega
      · have hmod : (current_index + 1) % 2 ^ 64 = current_index + 1 := by omega
        obtain ⟨r, hr, hcase⟩ := ih hl k (current_index + 1) (by omega) (by omega)
        refine ⟨r, ?_, ?_⟩
        · simp only [find_loop, hn, hv, if_false, hmod, hr]
        · rcases hcase with ⟨hnot, hrS⟩ | ⟨i, hi, hmin, hri⟩
          · refine Or.inl ⟨?_, hrS⟩
            simp only [List.map_cons, List.mem_cons, not_or]
            exact ⟨fun h => hv h.symm, hnot⟩
          · refine Or.inr ⟨i + 1, ?_, ?_, by omega⟩
            · simpa using hi
            · intro j hj
              cases j with
              | zero => simpa using hv
              | succ j => simpa using hmin j (by omega)

/-- C20: `linked_list_find` returns the first occurrence.  On a well-formed list
holding the values `cells.map Prod.snd`, the call returns a result `r`; `r` is
`SIZE_MAX` exactly when `d` does not occur, and when `d` occurs, position `r`
holds `d` and no earlier position does.  The function only reads: its result is
an index, and the memory and header it was given are what the caller still has. -/
theorem linked_list_find_first_occurrence {m : Mem} {l : linked_list}
    {cells : List (Nat × Nat)} (d : Nat) (hw : wellFormed m l cells) :
    ∃ r, linked_list_find m (some l) d = some r
      ∧ (r = SIZE_MAX ↔ d ∉ cells.map Prod.snd)
      ∧ (d ∈ cells.map Prod.snd →
          (cells.map Prod.snd)[r]? = some d
            ∧ ∀ j, j < r → (cells.map Prod.snd)[j]? ≠ some d) := by
  have hlen := linked_length_le hw.1 hw.2.1
  obtain ⟨r, hr, hcase⟩ := find_loop_linked d hw.1 (m.nodes.length + 1) 0 (by omega)
    (by have := hw.2.2.2.2; omega)
  refine ⟨r, hr, ?_, ?_⟩
  · rcases hcase with ⟨hnot, hrS⟩ | ⟨i, hi, _, hri⟩
    · exact ⟨fun _ => hnot, fun _ => hrS⟩
    · have hil : i < (cells.map Prod.snd).length := by
        rcases List.getElem?_eq_some.mp hi with ⟨hlt, _⟩
        exact hlt
      have hmem : d ∈ cells.map Prod.snd := by
        rcases List.getElem?_eq_some.mp hi with ⟨hlt, heq⟩
        rw [← heq]
        exact List.getElem_mem hlt
      have hbound := hw.2.2.2.2
      simp only [List.length_map] at hil
      constructor
      · intro hrS; omega
      · intro hnot; exact absurd hmem hnot
  · intro hmem
    rcases hcase with ⟨hnot, _⟩ | ⟨i, hi, hmin, hri⟩
    · exact absurd hmem hnot
    · have : r = i := by omega
      subst this
      exact ⟨hi, hmin⟩

theorem node_at_free_other (m : Mem) {a b : Nat} (h : a ≠ b) :
    (m.free a).node_at b = m.node_at b := by
  simp [Mem.node_at, Mem.free, List.getElem?_set, h]

/-- `linked_list_insert_front` on a well-formed list, with the allocator
registered and the allocation succeeding: the call returns `true` and the new
node, at the first free address, comes first. -/
theorem insert_front_wellFormed {m : Mem} {l : linked_list} {cells : List (Nat × Nat)}
    (d : Nat) (hw : wellFormed m l cells) (hm : m.malloc_fptr = true)
    (ha : m.malloc.1 = true) (hlen : cells.length < SIZE_MAX) :
    ∃ m1 l1, linked_list_insert_front m (some l) d = some (true, m1, some l1)
      ∧ wellFormed m1 l1 ((m.nodes.length, d) :: cells) := by
  obtain ⟨hl, hnd, ht, hs, _⟩ := hw
  have hlt := linked_addr_lt hl
  have hS := SIZE_MAX_eq
  have hlen2 : m.malloc.2.nodes.length = m.nodes.length := by rw [malloc_nodes]
  have hins : linked_list_insert_front m (some l) d
      = some (true, (m.malloc.2.new_node { data := d, next := l.head }).2,
          some { head := some m.nodes.length,
                 tail := if l.tail = none then some m.nodes.length else l.tail,
                 size := (l.size + 1) % 2 ^ 64 }) := by
    simp only [linked_list_insert_front, hm, ha, Bool.not_true, Bool.false_eq_true, if_false]
    simp only [Mem.new_node, hlen2]
    by_cases htl : l.tail = none <;> simp [htl]
  have hat : (m.malloc.2.new_node { data := d, next := l.head }).2.node_at m.nodes.length
      = some { data := d, next := l.head } := by
    have := node_at_new_node_new m.malloc.2 { data := d, next := l.head }
    rw [show (m.malloc.2.new_node { data := d, next := l.head }).1 = m.nodes.length
      from hlen2] at this
    exact this
  have hold : ∀ a ∈ cells.map Prod.fst,
      (m.malloc.2.new_node { data := d, next := l.head }).2.node_at a = m.node_at a := by
    intro a ha
    rw [node_at_new_node_old _ _ (by rw [hlen2]; exact hlt a ha), malloc_node_at]
  refine ⟨_, _, hins, ?_⟩
  unfold wellFormed
  refine ⟨?_, ?_, ?_, ?_, ?_⟩
  · rw [linked_cons]
    exact ⟨rfl, l.head, hat, linked_frame hold hl⟩
  · simp only [List.map_cons, List.nodup_cons]
    exact ⟨fun h => Nat.lt_irrefl _ (hlt _ h), hnd⟩
  · cases cells with
    | nil => simp [ht]
    | cons y ys =>
      simp only [ht]
      simp [List.getLast?_cons_cons]
  · simp only [List.length_cons, hs]
    omega
  · simp only [List.length_cons]
    omega

/-- `linked_list_insert_end` on a well-formed list, with the allocator registered
and the allocation succeeding: the call returns `true` and the new node, at the
first free address, comes last. -/
theorem insert_end_wellFormed {m : Mem} {l : linked_list} {cells : List (Nat × Nat)}
    (d : Nat) (hw : wellFormed m l cells) (hm : m.malloc_fptr = true)
    (ha : m.malloc.1 = true) (hlen : cells.length < SIZE_MAX) :
    ∃ m1 l1, linked_list_insert_end m (some l) d = some (true, m1, some l1)
      ∧ wellFormed m1 l1 (cells ++ [(m.nodes.length, d)]) := by
  obtain ⟨hl, hnd, ht, hs, _⟩ := hw
  have hlt := linked_addr_lt hl
  have hS := SIZE_MAX_eq
  have hlen2 : m.malloc.2.nodes.length = m.nodes.length := by rw [malloc_nodes]
  have hat : (m.malloc.2.new_node { data := d, next := none }).2.node_at m.nodes.length
      = some { data := d, next := none } := by
    have := node_at_new_node_new m.malloc.2 { data := d, next := none }
    rw [show (m.malloc.2.new_node { data := d, next := none }).1 = m.nodes.length
      from hlen2] at this
    exact this
  rcases List.eq_nil_or_concat cells with hnil | ⟨pre, x, hcat⟩
  · subst hnil
    rw [linked_nil] at hl
    refine ⟨(m.malloc.2.new_node { data := d, next := none }).2,
      { head := some m.nodes.length, tail := some m.nodes.length, size := 1 }, ?_, ?_⟩
    · simp only [List.length_nil] at hs
      simp [linked_list_insert_end, hm, ha, hl, hs, Mem.new_node, hlen2]
    · unfold wellFormed
      refine ⟨?_, by simp, by simp, by simp, by simp [SIZE_MAX_eq]⟩
      simp only [List.nil_append]
      rw [linked_cons]
      exact ⟨rfl, none, hat, by simp [linked_nil]⟩
  · obtain ⟨t, tv⟩ := x
    rw [List.concat_eq_append] at hcat
    subst hcat
    have hl0 := hl
    rw [linked_append] at hl
    obtain ⟨r, h1, h2⟩ := hl
    have hr := linked_head_ne_none h2
    simp only at hr
    subst hr
    rw [linked_cons] at h2
    obtain ⟨_, nxt, hn, h3⟩ := h2
    rw [linked_nil] at h3
    subst h3
    have hhead : ∃ h0, l.head = some h0 := by
      cases pre with
      | nil =>
        rw [linked_nil] at h1
        exact ⟨t, h1⟩
      | cons y ys => exact ⟨y.1, linked_head_ne_none h1⟩
    obtain ⟨h0, hh0⟩ := hhead
    have htail : l.tail = some t := by
      rw [ht]; simp [List.getLast?_append]
    have htl : t < m.nodes.length := node_at_lt hn
    have hnt : (m.malloc.2.new_node { data := d, next := none }).2.node_at t
        = some { data := tv, next := none } := by
      rw [node_at_new_node_old _ _ (by rw [hlen2]; exact htl), malloc_node_at, hn]
    simp only [List.length_append, List.length_singleton] at hs hlen
    refine ⟨(m.malloc.2.new_node { data := d, next := none }).2.write t
        { data := tv, next := some m.nodes.length },
      { head := l.head, tail := some m.nodes.length, size := (l.size + 1) % 2 ^ 64 }, ?_, ?_⟩
    · simp only [linked_list_insert_end, hm, ha, hh0, htail, hnt, Bool.not_true,
        Bool.false_eq_true, if_false]
      simp only [Mem.new_node, hlen2]
    · have hpre : ∀ a ∈ pre.map Prod.fst, a ≠ t ∧ a < m.nodes.length := by
        intro a ha
        have hmem : a ∈ (pre ++ [(t, tv)]).map Prod.fst := by
          simp only [List.map_append, List.mem_append]
          exact Or.inl ha
        refine ⟨?_, hlt a hmem⟩
        rintro rfl
        simp only [List.map_append, List.map_cons, List.map_nil, List.nodup_append,
          List.disjoint_singleton, List.disjoint_cons_right] at hnd
        exact hnd.2.2.1 ha
      have hother : ∀ a ∈ pre.map Prod.fst,
          ((m.malloc.2.new_node { data := d, next := none }).2.write t
            { data := tv, next := some m.nodes.length }).node_at a = m.node_at a := by
        intro a ha
        rw [node_at_write_other _ _ (Ne.symm (hpre a ha).1),
          node_at_new_node_old _ _ (by rw [hlen2]; exact (hpre a ha).2), malloc_node_at]
      unfold wellFormed
      refine ⟨?_, ?_, ?_, ?_, ?_⟩
      · rw [List.append_assoc, linked_append]
        refine ⟨some t, linked_frame hother h1, ?_⟩
        simp only [List.singleton_append]
        rw [linked_cons]
        refine ⟨rfl, some m.nodes.length, ?_, ?_⟩
        · apply node_at_write_same
          simp only [Mem.new_node, List.length_append, List.length_singleton, hlen2]
          omega
        · rw [linked_cons]
          refine ⟨rfl, none, ?_, by simp [linked_nil]⟩
          rw [node_at_write_other _ _ (Nat.ne_of_lt htl)]
          exact hat
      · have hN : m.nodes.length ∉ (pre ++ [(t, tv)]).map Prod.fst :=
          fun h => Nat.lt_irrefl _ (hlt _ h)
        rw [List.map_append, List.nodup_append]
        refine ⟨hnd, by simp, ?_⟩
        simp only [List.map_cons, List.map_nil, List.disjoint_singleton]
        exact hN
      · simp [List.getLast?_append]
      · simp only [List.length_append, List.length_singleton, hs]
        omega
      · simp only [List.length_append, List.length_singleton]
        omega

/-- Removing the first node.  On a well-formed list that is not empty, with the
release function registered, `linked_list_remove` at index 0 returns `true`,
frees the first node, and the rest of the list is well formed. -/
theorem remove_head_wellFormed {m : Mem} {l : linked_list} {a v : Nat}
    {rest : List (Nat × Nat)} (hw : wellFormed m l ((a, v) :: rest))
    (hfree : m.free_fptr = true) :
    ∃ l1, linked_list_remove m (some l) 0 = some (true, m.free a, some l1)
      ∧ wellFormed (m.free a) l1 rest := by
  obtain ⟨hl, hnd, ht, hs, hb⟩ := hw
  have hS := SIZE_MAX_eq
  rw [linked_cons] at hl
  obtain ⟨hh, nxt, hn, h3⟩ := hl
  simp only [List.length_cons] at hs hb
  simp only [List.map_cons, List.nodup_cons] at hnd
  refine ⟨{ head := nxt, tail := if nxt = none then none else l.tail,
            size := (l.size + SIZE_MAX) % 2 ^ 64 }, ?_, ?_⟩
  · simp only [linked_list_remove, hfree, hh, hn, Bool.not_true, Nat.not_lt_zero,
      decide_False, Bool.or_false, Bool.false_eq_true, if_false, if_true]
    by_cases hnx : nxt = none <;> simp [hnx]
  · unfold wellFormed
    refine ⟨?_, hnd.2, ?_, ?_, by omega⟩
    · refine linked_frame (fun b hb => node_at_free_other m ?_) h3
      rintro rfl
      exact hnd.1 hb
    · cases rest with
      | nil =>
        rw [linked_nil] at h3
        simp [h3]
      | cons y ys =>
        have hy := linked_head_ne_none h3
        simp only [hy, if_false, ht]
        simp [List.getLast?_cons_cons]
    · simp only [hs]
      omega

/-- Removing the node after `(c, cv)`.  On a well-formed list, with both
allocator functions registered and the allocation of the iterator succeeding,
`linked_list_remove` at the index of the node `(r, rv)` that follows `(c, cv)`
returns `true`, and the list without that node is well formed. -/
theorem remove_after_node_wellFormed {m : Mem} {l : linked_list}
    {pre post : List (Nat × Nat)} {c cv r rv : Nat}
    (hw : wellFormed m l (pre ++ (c, cv) :: (r, rv) :: post))
    (hfree : m.free_fptr = true) (hm : m.malloc_fptr = true) (ha : m.malloc.1 = true) :
    ∃ m1 l1, linked_list_remove m (some l) (pre.length + 1) = some (true, m1, some l1)
      ∧ wellFormed m1 l1 (pre ++ (c, cv) :: post) := by
  have hit := create_iterator_at_node hw hm ha
  obtain ⟨hl, hnd, ht, hs, hb⟩ := hw
  have hlt := linked_addr_lt hl
  have hS := SIZE_MAX_eq
  simp only [List.length_append, List.length_cons] at hs hb
  rw [linked_append] at hl
  obtain ⟨q, h1, h2⟩ := hl
  have hq := linked_head_ne_none h2
  simp only at hq
  subst hq
  rw [linked_cons] at h2
  obtain ⟨_, nxt, hn, h3⟩ := h2
  have hnx := linked_head_ne_none h3
  simp only at hnx
  subst hnx
  rw [linked_cons] at h3
  obtain ⟨_, rnext, hrn, h4⟩ := h3
  have hidx : (pre.length + 1 + SIZE_MAX) % 2 ^ 64 = pre.length := by omega
  have hsz : ¬ l.size < pre.length + 1 := by omega
  have hn1 : m.malloc.2.node_at c = some { data := cv, next := some r } := by
    rw [malloc_node_at, hn]
  have hrn1 : m.malloc.2.node_at r = some { data := rv, next := rnext } := by
    rw [malloc_node_at, hrn]
  have hfree1 : m.malloc.2.free_fptr = true := by rw [(malloc_fptrs m).2, hfree]
  simp only [List.map_append, List.map_cons, List.nodup_append, List.nodup_cons,
    List.mem_cons, List.disjoint_cons_right, not_or] at hnd
  obtain ⟨hpn, ⟨⟨hcr, hcp⟩, hrp, hpo⟩, hcpre, hrpre, hdis⟩ := hnd
  have hclt : c < m.malloc.2.nodes.length := node_at_lt hn1
  refine ⟨(m.malloc.2.write c { data := cv, next := rnext }).free r,
    { head := l.head, tail := if rnext = none then some c else l.tail,
      size := (l.size + SIZE_MAX) % 2 ^ 64 }, ?_, ?_⟩
  · simp only [linked_list_remove, hfree, hsz, hidx, hit, hn1, hrn1, Bool.not_true,
      decide_False, Bool.or_false, Bool.false_eq_true, if_false, Nat.add_one_ne_zero]
    by_cases hnx : rnext = none <;> simp [hnx]
  · have hother : ∀ a, a ≠ c → a ≠ r →
        ((m.malloc.2.write c { data := cv, next := rnext }).free r).node_at a
          = m.node_at a := by
      intro a hac har
      rw [node_at_free_other _ (Ne.symm har), node_at_write_other _ _ (Ne.symm hac),
        malloc_node_at]
    unfold wellFormed
    refine ⟨?_, ?_, ?_, ?_, ?_⟩
    · rw [linked_append]
      refine ⟨some c, linked_frame (fun a ha => hother a ?_ ?_) h1, ?_⟩
      · rintro rfl; exact hcpre ha
      · rintro rfl; exact hrpre ha
      · rw [linked_cons]
        refine ⟨rfl, rnext, ?_, linked_frame (fun a ha => hother a ?_ ?_) h4⟩
        · rw [node_at_free_other _ (Ne.symm hcr)]
          exact node_at_write_same _ _ hclt
        · rintro rfl; exact hcp ha
        · rintro rfl; exact hrp ha
    · simp only [List.map_append, List.map_cons, List.nodup_append, List.nodup_cons,
        List.disjoint_cons_right]
      exact ⟨hpn, ⟨hcp, hpo⟩, hcpre, hdis⟩
    · cases post with
      | nil =>
        rw [linked_nil] at h4
        simp [h4, List.getLast?_append]
      | cons y ys =>
        have hy := linked_head_ne_none h4
        simp only [hy, if_false, ht]
        simp [List.getLast?_append, List.getLast?_cons_cons]
    · simp only [List.length_append, List.length_cons, hs]
      omega
    · simp only [List.length_append, List.length_cons]
      omega

theorem map_snd_eraseIdx (cells : List (Nat × Nat)) (i : Nat) :
    (cells.eraseIdx i).map Prod.snd = (cells.map Prod.snd).eraseIdx i := by
  induction cells generalizing i with
  | nil => rfl
  | cons x xs ih => cases i <;> simp [List.eraseIdx, ih]

theorem exists_split_two (cells : List (Nat × Nat)) (k : Nat) (h : k + 1 < cells.length) :
    ∃ pre c r post, cells = pre ++ c :: r :: post ∧ pre.length = k := by
  refine ⟨cells.take k, cells[k], cells[k + 1], cells.drop (k + 2), ?_, ?_⟩
  · rw [List.getElem_cons_drop, List.getElem_cons_drop, List.take_append_drop]
  · simp; omega

theorem exists_split_one (cells : List (Nat × Nat)) (k : Nat) (h : k < cells.length) :
    ∃ pre c post, cells = pre ++ c :: post ∧ pre.length = k ∧ c = cells[k] := by
  refine ⟨cells.take k, cells[k], cells.drop (k + 1), ?_, ?_, rfl⟩
  · rw [List.getElem_cons_drop, List.take_append_drop]
  · simp; omega

/-- C11, as amended: `linked_list_remove` deletes the element at the index.  On
a well-formed list of `n` nodes with the release function registered, for every
index below `n`, and, when the index is not 0, with the allocator registered and
the allocation of the iterator succeeding, the call returns `true`; the list is
then the old one without its node at that index, the other nodes kept in order,
its size is `n - 1` and its tail is the last remaining node (`NULL` for none). -/
theorem linked_list_remove_at_index {m : Mem} {l : linked_list} {cells : List (Nat × Nat)}
    (index : Nat) (hw : wellFormed m l cells) (hfree : m.free_fptr = true)
    (hi : index < cells.length)
    (halloc : index = 0 ∨ (m.malloc_fptr = true ∧ m.malloc.1 = true)) :
    ∃ m1 l1, linked_list_remove m (some l) index = some (true, m1, some l1)
      ∧ wellFormed m1 l1 (cells.eraseIdx index)
      ∧ contents m1 l1 = some ((cells.map Prod.snd).eraseIdx index)
      ∧ l1.size = cells.length - 1
      ∧ l1.tail = ((cells.eraseIdx index).map Prod.fst).getLast? := by
  have key : ∃ m1 l1, linked_list_remove m (some l) index = some (true, m1, some l1)
      ∧ wellFormed m1 l1 (cells.eraseIdx index) := by
    cases index with
    | zero =>
      cases cells with
      | nil => simp at hi
      | cons x rest =>
        obtain ⟨a, v⟩ := x
        obtain ⟨l1, h1, h2⟩ := remove_head_wellFormed hw hfree
        exact ⟨_, l1, h1, h2⟩
    | succ k =>
      obtain ⟨pre, c, r, post, hc, hk⟩ := exists_split_two cells k hi
      subst hc
      obtain ⟨c1, c2⟩ := c
      obtain ⟨r1, r2⟩ := r
      rcases halloc with h0 | ⟨hm, ha⟩
      · omega
      · obtain ⟨m1, l1, h1, h2⟩ := remove_after_node_wellFormed hw hfree hm ha
        rw [hk] at h1
        refine ⟨m1, l1, h1, ?_⟩
        rw [List.eraseIdx_append_of_length_le (by omega)]
        have : k + 1 - pre.length = 1 := by omega
        rw [this]
        exact h2
  obtain ⟨m1, l1, h1, h2⟩ := key
  refine ⟨m1, l1, h1, h2, ?_, ?_, h2.2.2.1⟩
  · rw [contents_wellFormed h2, map_snd_eraseIdx]
  · rw [h2.2.2.2.1, List.length_eraseIdx]
    simp [hi]

/-- C11, the claim as stated fails when the iterator cannot be allocated: on the
well-formed list `[1, 2]`, with both functions registered and the next
allocation returning `NULL`, `linked_list_remove` at index 1 returns `false` and
the list is unchanged. -/
theorem linked_list_remove_fails_without_memory :
    wellFormed pairMemExhausted pairList [(0, 1), (1, 2)]
      ∧ pairMemExhausted.free_fptr = true ∧ pairMemExhausted.malloc_fptr = true
      ∧ linked_list_remove pairMemExhausted (some pairList) 1
          = some (false, pairMem, some pairList)
      ∧ contents pairMem pairList = some [1, 2] := by
  decide

/-- C11, instance: removing index 1 of the list `[4, 7, 7]` gives `[4, 7]`, size 2,
with the node at address 2 as tail. -/
theorem linked_list_remove_at_index_witness :
    wellFormed tripleMem tripleList [(0, 4), (1, 7), (2, 7)]
      ∧ ∃ m1 l1, linked_list_remove tripleMem (some tripleList) 1 = some (true, m1, some l1)
          ∧ wellFormed m1 l1 [(0, 4), (2, 7)]
          ∧ contents m1 l1 = some [4, 7]
          ∧ l1.size = 2
          ∧ l1.tail = some 2 :=
  ⟨by decide,
    @linked_list_remove_at_index tripleMem tripleList [(0, 4), (1, 7), (2, 7)] 1
      (by decide) (by decide) (by decide) (Or.inr ⟨by decide, by decide⟩)⟩

/-- C12: `linked_list_insert_end` appends and `linked_list_insert_front`
prepends.  On a well-formed list (fewer than `SIZE_MAX` nodes) holding the
sequence `cells.map Prod.snd`, with the allocator registered and the allocation
succeeding, `linked_list_insert_end` returns `true` and the list then holds the
old sequence followed by `d`; `linked_list_insert_front` returns `true` and the
list then holds `d` followed by the old sequence; either way the size has grown
by exactly one and the list is well formed. -/
theorem linked_list_insert_end_and_front {m : Mem} {l : linked_list}
    {cells : List (Nat × Nat)} (d : Nat) (hw : wellFormed m l cells)
    (hm : m.malloc_fptr = true) (ha : m.malloc.1 = true) (hlen : cells.length < SIZE_MAX) :
    (∃ m1 l1, linked_list_insert_end m (some l) d = some (true, m1, some l1)
        ∧ contents m1 l1 = some (cells.map Prod.snd ++ [d])
        ∧ l1.size = l.size + 1
        ∧ wellFormed m1 l1 (cells ++ [(m.nodes.length, d)]))
      ∧ ∃ m1 l1, linked_list_insert_front m (some l) d = some (true, m1, some l1)
        ∧ contents m1 l1 = some (d :: cells.map Prod.snd)
        ∧ l1.size = l.size + 1
        ∧ wellFormed m1 l1 ((m.nodes.length, d) :: cells) := by
  have hs := hw.2.2.2.1
  constructor
  · obtain ⟨m1, l1, h1, h2⟩ := insert_end_wellFormed d hw hm ha hlen
    refine ⟨m1, l1, h1, ?_, ?_, h2⟩
    · rw [contents_wellFormed h2]; simp
    · rw [h2.2.2.2.1, hs]; simp
  · obtain ⟨m1, l1, h1, h2⟩ := insert_front_wellFormed d hw hm ha hlen
    refine ⟨m1, l1, h1, ?_, ?_, h2⟩
    · rw [contents_wellFormed h2]; simp
    · rw [h2.2.2.2.1, hs]; simp

/-- C12, instance: on the list `[1, 2]`, appending 7 gives `[1, 2, 7]` and
prepending 7 gives `[7, 1, 2]`, each of size 3. -/
theorem linked_list_insert_end_and_front_witness :
    wellFormed pairMem pairList [(0, 1), (1, 2)]
      ∧ (∃ m1 l1, linked_list_insert_end pairMem (some pairList) 7 = some (true, m1, some l1)
          ∧ contents m1 l1 = some [1, 2, 7] ∧ l1.size = 3
          ∧ wellFormed m1 l1 [(0, 1), (1, 2), (2, 7)])
      ∧ ∃ m1 l1, linked_list_insert_front pairMem (some pairList) 7 = some (true, m1, some l1)
          ∧ contents m1 l1 = some [7, 1, 2] ∧ l1.size = 3
          ∧ wellFormed m1 l1 [(2, 7), (0, 1), (1, 2)] :=
  ⟨by decide,
    @linked_list_insert_end_and_front pairMem pairList [(0, 1), (1, 2)] 7
      (by decide) (by decide) (by decide) (by decide)⟩

/-- C17: `linked_list_remove` at index 0 of the empty list dereferences `NULL`.
The empty list of `linked_list_create` passes the guard `ll->size < index`, and
the read `ll->head->next` has no node to read: the call has no defined result.
Index `n` on a list of `n >= 1` nodes, here index 1 on `[1]`, is rejected with
`false` and the list unchanged, as is an index beyond. -/
theorem linked_list_remove_empty_no_result :
    linked_list_create emptyMem = (emptyMem, some emptyList)
      ∧ wellFormed emptyMem emptyList []
      ∧ linked_list_remove emptyMem (some emptyList) 0 = none
      ∧ linked_list_remove singletonMem (some singletonList) 1
          = some (false, singletonMem, some singletonList)
      ∧ linked_list_remove singletonMem (some singletonList) 2
          = some (false, singletonMem, some singletonList) := by
  decide

/-- C18: `linked_list_create_iterator` at index `n` of a list of `n >= 1` nodes
dereferences `NULL`.  On the list `[1]` index 1 passes the guard
`ll->size < index`, the loop ends with `current == NULL`, and the read
`current_node->data` has no node to read: the call has no defined result.  The
empty list and an index beyond the size yield `NULL`; index 0 yields an iterator. -/
theorem linked_list_create_iterator_at_size_no_result :
    wellFormed singletonMem singletonList [(0, 1)]
      ∧ linked_list_create_iterator singletonMem (some singletonList) 1 = none
      ∧ linked_list_create_iterator singletonMem (some singletonList) 2
          = some (singletonMem, none)
      ∧ linked_list_create_iterator emptyMem (some emptyList) 0 = some (emptyMem, none)
      ∧ linked_list_create_iterator singletonMem (some singletonList) 0
          = some (singletonMem,
              some { current_node := some 0, current_index := 0, data := 1 }) := by
  decide

/-- C20, instance: in the list `[4, 7, 7]` the value 7 is found at index 1 and
the value 5 is not found. -/
theorem linked_list_find_first_occurrence_witness :
    wellFormed tripleMem tripleList [(0, 4), (1, 7), (2, 7)]
      ∧ linked_list_find tripleMem (some tripleList) 7 = some 1
      ∧ linked_list_find tripleMem (some tripleList) 5 = some SIZE_MAX
      ∧ ∃ r, linked_list_find tripleMem (some tripleList) 7 = some r
          ∧ (r = SIZE_MAX ↔ 7 ∉ [4, 7, 7])
          ∧ (7 ∈ [4, 7, 7] → [4, 7, 7][r]? = some 7 ∧ ∀ j, j < r → [4, 7, 7][j]? ≠ some 7) :=
  ⟨by decide, by decide, by decide,
    @linked_list_find_first_occurrence tripleMem tripleList [(0, 4), (1, 7), (2, 7)] 7
      (by decide)⟩

theorem iterate_step {m : Mem} {c cv r rv i : Nat} {rnext : Option Nat}
    (hc : m.node_at c = some { data := cv, next := some r })
    (hr : m.node_at r = some { data := rv, next := rnext }) :
    linked_list_iterate m (some { current_node := some c, current_index := i, data := cv })
      = some (true, some { current_node := some r, current_index := (i + 1) % 2 ^ 64,
                           data := rv }) := by
  simp [linked_list_iterate, hc, hr]

theorem iterate_last {m : Mem} {c cv i : Nat}
    (hc : m.node_at c = some { data := cv, next := none }) :
    linked_list_iterate m (some { current_node := some c, current_index := i, data := cv })
      = some (false, some { current_node := some c, current_index := i, data := cv }) := by
  simp [linked_list_iterate, hc]

theorem iterate_all_linked {m : Mem} {post : List (Nat × Nat)} {c cv : Nat}
    (h : linked m (some c) ((c, cv) :: post) none = true) (fuel i : Nat)
    (hf : post.length + 1 ≤ fuel) :
    iterate_all m fuel { current_node := some c, current_index := i, data := cv }
      = some (cv :: post.map Prod.snd) := by
  induction post generalizing c cv fuel i with
  | nil =>
    rw [linked_cons] at h
    obtain ⟨_, nxt, hn, h2⟩ := h
    rw [linked_nil] at h2
    subst h2
    cases fuel with
    | zero => simp at hf
    | succ k => simp [iterate_all, iterate_last hn]
  | cons y ys ih =>
    obtain ⟨r, rv⟩ := y
    rw [linked_cons] at h
    obtain ⟨_, nxt, hn, h2⟩ := h
    have hnx := linked_head_ne_none h2
    simp only at hnx
    subst hnx
    have h2c := h2
    rw [linked_cons] at h2c
    obtain ⟨_, rnext, hrn, _⟩ := h2c
    cases fuel with
    | zero => simp at hf
    | succ k =>
      simp only [List.length_cons, Nat.add_le_add_iff_right] at hf
      simp only [iterate_all, iterate_step hn hrn]
      rw [ih h2 k _ hf]
      simp

theorem exists_split_two_get (cells : List (Nat × Nat)) (k : Nat) (h : k + 1 < cells.length) :
    ∃ pre c r post, cells = pre ++ c :: r :: post ∧ pre.length = k
      ∧ c = cells[k] ∧ r = cells[k + 1] := by
  refine ⟨cells.take k, cells[k], cells[k + 1], cells.drop (k + 2), ?_, ?_, rfl, rfl⟩
  · rw [List.getElem_cons_drop, List.getElem_cons_drop, List.take_append_drop]
  · simp; omega

/-- C13, as amended: iteration visits the elements in order.  On a well-formed
list of `n >= 1` nodes, with the allocator registered and the allocation of the
iterator succeeding, for every `i < n`: `linked_list_create_iterator` at `i`
yields an iterator on node `i` with `current_index == i` and the value at
position `i`; `linked_list_iterate` on the iterator at a position `i < n - 1`
returns `true` and moves it to position `i + 1` with the value there; on the last
position it returns `false` and leaves the iterator as it is; and creating an
iterator at 0 and iterating until `false` reads the whole sequence once, in
order. -/
theorem linked_list_iteration_in_order {m : Mem} {l : linked_list}
    {cells : List (Nat × Nat)} (i : Nat) (hw : wellFormed m l cells)
    (hm : m.malloc_fptr = true) (ha : m.malloc.1 = true) (hi : i < cells.length) :
    linked_list_create_iterator m (some l) i
        = some (m.malloc.2,
            some { current_node := some cells[i].1, current_index := i, data := cells[i].2 })
      ∧ (∀ h : i + 1 < cells.length,
          linked_list_iterate m.malloc.2
              (some { current_node := some cells[i].1, current_index := i, data := cells[i].2 })
            = some (true, some { current_node := some cells[i + 1].1, current_index := i + 1,
                                 data := cells[i + 1].2 }))
      ∧ (i + 1 = cells.length →
          linked_list_iterate m.malloc.2
              (some { current_node := some cells[i].1, current_index := i, data := cells[i].2 })
            = some (false,
                some { current_node := some cells[i].1, current_index := i, data := cells[i].2 }))
      ∧ ∃ it, linked_list_create_iterator m (some l) 0 = some (m.malloc.2, some it)
          ∧ iterate_all m.malloc.2 cells.length it = some (cells.map Prod.snd) := by
  have hlink : linked m.malloc.2 l.head cells none = true := by
    rw [linked_congr (malloc_node_at m)]; exact hw.1
  have hbound := hw.2.2.2.2
  have hS := SIZE_MAX_eq
  refine ⟨?_, ?_, ?_, ?_⟩
  · obtain ⟨pre, c, post, hc, hk, hci⟩ := exists_split_one cells i hi
    rw [← hci]
    clear hci
    subst hc
    obtain ⟨c1, c2⟩ := c
    have := create_iterator_at_node hw hm ha
    rw [hk] at this
    exact this
  · intro h
    obtain ⟨pre, c, r, post, hc, hk, hci, hri⟩ := exists_split_two_get cells i h
    rw [← hci, ← hri]
    clear hci hri
    subst hc
    obtain ⟨c1, c2⟩ := c
    obtain ⟨r1, r2⟩ := r
    rw [linked_append] at hlink
    obtain ⟨q, _, h2⟩ := hlink
    rw [linked_cons] at h2
    obtain ⟨_, nxt, hn, h3⟩ := h2
    have hnx := linked_head_ne_none h3
    simp only at hnx
    subst hnx
    rw [linked_cons] at h3
    obtain ⟨_, rnext, hrn, _⟩ := h3
    have hmod : (i + 1) % 2 ^ 64 = i + 1 := by omega
    have := @iterate_step m.malloc.2 c1 c2 r1 r2 i rnext hn hrn
    rw [hmod] at this
    exact this
  · intro hlast
    obtain ⟨pre, c, post, hc, hk, hci⟩ := exists_split_one cells i hi
    rw [← hci]
    clear hci
    subst hc
    obtain ⟨c1, c2⟩ := c
    have hpost : post = [] := by
      simp only [List.length_append, List.length_cons] at hlast
      exact List.length_eq_zero.mp (by omega)
    subst hpost
    rw [linked_append] at hlink
    obtain ⟨q, _, h2⟩ := hlink
    rw [linked_cons] at h2
    obtain ⟨_, nxt, hn, h3⟩ := h2
    rw [linked_nil] at h3
    subst h3
    exact iterate_last hn
  · cases cells with
    | nil => simp at hi
    | cons x rest =>
      obtain ⟨a, v⟩ := x
      have hh := linked_head_ne_none hlink
      simp only at hh
      rw [hh] at hlink
      refine ⟨{ current_node := some a, current_index := 0, data := v }, ?_, ?_⟩
      · exact @create_iterator_at_node m l [] rest a v hw hm ha
      · rw [iterate_all_linked hlink _ 0 (by simp)]
        simp

/-- C13, the claim as stated fails when the iterator cannot be allocated: on the
well-formed list `[1, 2]`, with the allocator registered and its next call
returning `NULL`, `linked_list_create_iterator` at index 0 returns `NULL`. -/
theorem linked_list_create_iterator_fails_without_memory :
    wellFormed pairMemExhausted pairList [(0, 1), (1, 2)]
      ∧ pairMemExhausted.malloc_fptr = true
      ∧ linked_list_create_iterator pairMemExhausted (some pairList) 0
          = some (pairMem, none) := by
  decide

/-- C13, instance: on the list `[4, 7, 7]` an iterator created at 1 is on the
node at address 1 with value 7; iterating moves it to position 2; iterating
again returns `false`; reading from position 0 until `false` gives `[4, 7, 7]`. -/
theorem linked_list_iteration_in_order_witness :
    wellFormed tripleMem tripleList [(0, 4), (1, 7), (2, 7)]
      ∧ linked_list_create_iterator tripleMem (some tripleList) 1
          = some (tripleMem, some { current_node := some 1, current_index := 1, data := 7 })
      ∧ linked_list_iterate tripleMem
            (some { current_node := some 1, current_index := 1, data := 7 })
          = some (true, some { current_node := some 2, current_index := 2, data := 7 })
      ∧ linked_list_iterate tripleMem
            (some { current_node := some 2, current_index := 2, data := 7 })
          = some (false, some { current_node := some 2, current_index := 2, data := 7 })
      ∧ ∃ it, linked_list_create_iterator tripleMem (some tripleList) 0
            = some (tripleMem, some it)
          ∧ iterate_all tripleMem 3 it = some [4, 7, 7] :=
  have h1 := @linked_list_iteration_in_order tripleMem tripleList [(0, 4), (1, 7), (2, 7)] 1
    (by decide) (by decide) (by decide) (by decide)
  have h2 := @linked_list_iteration_in_order tripleMem tripleList [(0, 4), (1, 7), (2, 7)] 2
    (by decide) (by decide) (by decide) (by decide)
  ⟨by decide, h1.1, h1.2.1 (by decide), h2.2.2.1 rfl, h1.2.2.2⟩

theorem wellFormed_malloc {m : Mem} {l : linked_list} {cells : List (Nat × Nat)}
    (hw : wellFormed m l cells) : wellFormed m.malloc.2 l cells := by
  obtain ⟨hl, hrest⟩ := hw
  exact ⟨by rw [linked_congr (malloc_node_at m)]; exact hl, hrest⟩

/-- Whatever `linked_list_insert_front` returns on a well-formed list, the list
is well formed afterwards and has at most one node more. -/
theorem insert_front_keeps_wellFormed {m m1 : Mem} {l : linked_list}
    {cells : List (Nat × Nat)} {d : Nat} {b : Bool} {ll1 : Option linked_list}
    (hw : wellFormed m l cells) (hlen : cells.length < SIZE_MAX)
    (h : linked_list_insert_front m (some l) d = some (b, m1, ll1)) :
    ∃ l1 cells1, ll1 = some l1 ∧ wellFormed m1 l1 cells1
      ∧ cells1.length ≤ cells.length + 1 := by
  cases hm : m.malloc_fptr with
  | false =>
    simp [linked_list_insert_front, hm] at h
    obtain ⟨_, h1, h2⟩ := h
    subst h1 h2
    exact ⟨l, cells, rfl, hw, by omega⟩
  | true =>
    cases ha : m.malloc.1 with
    | false =>
      simp [linked_list_insert_front, hm, ha] at h
      obtain ⟨_, h1, h2⟩ := h
      subst h1 h2
      exact ⟨l, cells, rfl, wellFormed_malloc hw, by omega⟩
    | true =>
      obtain ⟨m2, l2, h1, h2⟩ := insert_front_wellFormed d hw hm ha hlen
      rw [h1] at h
      simp only [Option.some.injEq, Prod.mk.injEq] at h
      obtain ⟨_, h3, h4⟩ := h
      subst h3 h4
      exact ⟨l2, _, rfl, h2, by simp⟩

/-- Whatever `linked_list_insert_end` returns on a well-formed list, the list is
well formed afterwards and has at most one node more. -/
theorem insert_end_keeps_wellFormed {m m1 : Mem} {l : linked_list}
    {cells : List (Nat × Nat)} {d : Nat} {b : Bool} {ll1 : Option linked_list}
    (hw : wellFormed m l cells) (hlen : cells.length < SIZE_MAX)
    (h : linked_list_insert_end m (some l) d = some (b, m1, ll1)) :
    ∃ l1 cells1, ll1 = some l1 ∧ wellFormed m1 l1 cells1
      ∧ cells1.length ≤ cells.length + 1 := by
  cases hm : m.malloc_fptr with
  | false =>
    simp [linked_list_insert_end, hm] at h
    obtain ⟨_, h1, h2⟩ := h
    subst h1 h2
    exact ⟨l, cells, rfl, hw, by omega⟩
  | true =>
    cases ha : m.malloc.1 with
    | false =>
      simp [linked_list_insert_end, hm, ha] at h
      obtain ⟨_, h1, h2⟩ := h
      subst h1 h2
      exact ⟨l, cells, rfl, wellFormed_malloc hw, by omega⟩
    | true =>
      obtain ⟨m2, l2, h1, h2⟩ := insert_end_wellFormed d hw hm ha hlen
      rw [h1] at h
      simp only [Option.some.injEq, Prod.mk.injEq] at h
      obtain ⟨_, h3, h4⟩ := h
      subst h3 h4
      exact ⟨l2, _, rfl, h2, by simp⟩

theorem create_iterator_no_memory {m : Mem} {l : linked_list} {cells : List (Nat × Nat)}
    {k : Nat} (hw : wellFormed m l cells) (hm : m.malloc_fptr = true)
    (ha : m.malloc.1 = false) (hk : k < cells.length) :
    linked_list_create_iterator m (some l) k = some (m.malloc.2, none) := by
  have hs := hw.2.2.2.1
  have hsz : ¬ l.size < k := by omega
  have hz : ¬ l.size = 0 := by omega
  simp [linked_list_create_iterator, hm, ha, hsz, hz]

/-- Whatever `linked_list_insert` returns on a well-formed list, the list is
well formed afterwards and has at most one node more. -/
theorem insert_keeps_wellFormed {m m1 : Mem} {l : linked_list}
    {cells : List (Nat × Nat)} {index d : Nat} {b : Bool} {ll1 : Option linked_list}
    (hw : wellFormed m l cells) (hlen : cells.length < SIZE_MAX)
    (h : linked_list_insert m (some l) index d = some (b, m1, ll1)) :
    ∃ l1 cells1, ll1 = some l1 ∧ wellFormed m1 l1 cells1
      ∧ cells1.length ≤ cells.length + 1 := by
  have hS := SIZE_MAX_eq
  have hs := hw.2.2.2.1
  cases hm : m.malloc_fptr with
  | false =>
    simp [linked_list_insert, hm] at h
    obtain ⟨_, h1, h2⟩ := h
    subst h1 h2
    exact ⟨l, cells, rfl, hw, by omega⟩
  | true =>
    by_cases hsz : l.size < index
    · rw [linked_list_insert_past_size m l index d hsz] at h
      simp only [Option.some.injEq, Prod.mk.injEq] at h
      obtain ⟨_, h1, h2⟩ := h
      subst h1 h2
      exact ⟨l, cells, rfl, hw, by omega⟩
    · cases cells with
      | nil =>
        have hh : l.head = none := by
          have := hw.1
          rw [linked_nil] at this
          exact this
        have heq : linked_list_insert m (some l) index d
            = linked_list_insert_front m (some l) d := by
          simp [linked_list_insert, hm, hsz, hh]
        rw [heq] at h
        exact insert_front_keeps_wellFormed hw hlen h
      | cons x xs =>
        cases index with
        | zero =>
          rw [linked_list_insert_zero_nonempty d hw hlen] at h
          simp only [Option.some.injEq, Prod.mk.injEq] at h
          obtain ⟨_, h1, h2⟩ := h
          subst h1 h2
          exact ⟨l, _, rfl, hw, by omega⟩
        | succ k =>
          have hk : k < (x :: xs).length := by omega
          have hh : l.head ≠ none := by
            rw [linked_head_ne_none hw.1]; simp
          have hidx : (k + 1 + SIZE_MAX) % 2 ^ 64 = k := by omega
          cases ha1 : m.malloc.1 with
          | false =>
            have hit := create_iterator_no_memory hw hm ha1 hk
            simp only [linked_list_insert, hm, hsz, hh, hidx, hit, Bool.not_true,
              decide_False, Bool.or_false, Bool.false_eq_true, if_false,
              Option.some.injEq, Prod.mk.injEq] at h
            obtain ⟨_, h1, h2⟩ := h
            subst h1 h2
            exact ⟨l, _, rfl, wellFormed_malloc hw, by omega⟩
          | true =>
            obtain ⟨pre, c, post, hc, hpre, _⟩ := exists_split_one (x :: xs) k hk
            rw [hc] at hw hlen
            obtain ⟨c1, c2⟩ := c
            cases ha2 : m.malloc.2.malloc.1 with
            | false =>
              have hit := create_iterator_at_node hw hm ha1
              rw [hpre] at hit
              simp only [linked_list_insert, hm, hsz, hh, hidx, hit, ha2, Bool.not_true,
                decide_False, Bool.or_false, Bool.false_eq_true, if_false, Bool.not_false,
                if_true, Option.some.injEq, Prod.mk.injEq] at h
              obtain ⟨_, h1, h2⟩ := h
              subst h1 h2
              refine ⟨l, _, rfl, wellFormed_malloc (wellFormed_malloc hw), ?_⟩
              rw [hc]; omega
            | true =>
              obtain ⟨m2, l2, h1, h2⟩ := linked_list_insert_after_node d hw hm ha1 ha2 hlen
              rw [hpre] at h1
              rw [h1] at h
              simp only [Option.some.injEq, Prod.mk.injEq] at h
              obtain ⟨_, h3, h4⟩ := h
              subst h3 h4
              refine ⟨l2, _, rfl, h2, ?_⟩
              rw [hc]
              simp only [List.length_append, List.length_cons]
              omega

/-- Whatever `linked_list_remove` returns on a well-formed list, if it returns
at all, the list is well formed afterwards and has no node more. -/
theorem remove_keeps_wellFormed {m m1 : Mem} {l : linked_list}
    {cells : List (Nat × Nat)} {index : Nat} {b : Bool} {ll1 : Option linked_list}
    (hw : wellFormed m l cells)
    (h : linked_list_remove m (some l) index = some (b, m1, ll1)) :
    ∃ l1 cells1, ll1 = some l1 ∧ wellFormed m1 l1 cells1
      ∧ cells1.length ≤ cells.length := by
  have hS := SIZE_MAX_eq
  have hs := hw.2.2.2.1
  have hb := hw.2.2.2.2
  cases hf : m.free_fptr with
  | false =>
    simp [linked_list_remove, hf] at h
    obtain ⟨_, h1, h2⟩ := h
    subst h1 h2
    exact ⟨l, cells, rfl, hw, by omega⟩
  | true =>
    by_cases hsz : l.size < index
    · simp [linked_list_remove, hsz] at h
      obtain ⟨_, h1, h2⟩ := h
      subst h1 h2
      exact ⟨l, cells, rfl, hw, by omega⟩
    · cases index with
      | zero =>
        cases cells with
        | nil =>
          have hh : l.head = none := by
            have := hw.1
            rw [linked_nil] at this
            exact this
          simp [linked_list_remove, hf, hh] at h
        | cons x rest =>
          obtain ⟨a, v⟩ := x
          obtain ⟨l2, h1, h2⟩ := remove_head_wellFormed hw hf
          rw [h1] at h
          simp only [Option.some.injEq, Prod.mk.injEq] at h
          obtain ⟨_, h3, h4⟩ := h
          subst h3 h4
          exact ⟨l2, _, rfl, h2, by simp⟩
      | succ k =>
        have hk : k < cells.length := by omega
        have hidx : (k + 1 + SIZE_MAX) % 2 ^ 64 = k := by omega
        cases hm : m.malloc_fptr with
        | false =>
          simp [linked_list_remove, hf, hsz, hidx, linked_list_create_iterator, hm] at h
          obtain ⟨_, h1, h2⟩ := h
          subst h1 h2
          exact ⟨l, cells, rfl, hw, by omega⟩
        | true =>
          cases ha : m.malloc.1 with
          | false =>
            have hit := create_iterator_no_memory hw hm ha hk
            simp only [linked_list_remove, hf, hsz, hidx, hit, Bool.not_true, decide_False,
              Bool.or_false, Bool.false_eq_true, if_false, Nat.add_one_ne_zero,
              Option.some.injEq, Prod.mk.injEq] at h
            obtain ⟨_, h1, h2⟩ := h
            subst h1 h2
            exact ⟨l, cells, rfl, wellFormed_malloc hw, by omega⟩
          | true =>
            obtain ⟨pre, c, post, hc, hpre, _⟩ := exists_split_one cells k hk
            subst hc
            obtain ⟨c1, c2⟩ := c
            cases post with
            | nil =>
              have hit := create_iterator_at_node hw hm ha
              rw [hpre] at hit
              have hl := (wellFormed_malloc hw).1
              rw [linked_append] at hl
              obtain ⟨q, _, h2⟩ := hl
              rw [linked_cons] at h2
              obtain ⟨_, nxt, hn, h3⟩ := h2
              rw [linked_nil] at h3
              subst h3
              simp only [linked_list_remove, hf, hsz, hidx, hit, hn, Bool.not_true,
                decide_False, Bool.or_false, Bool.false_eq_true, if_false,
                Nat.add_one_ne_zero, Option.some.injEq, Prod.mk.injEq] at h
              obtain ⟨_, h1, h2⟩ := h
              subst h1 h2
              exact ⟨l, _, rfl, wellFormed_malloc hw, by omega⟩
            | cons r post1 =>
              obtain ⟨r1, r2⟩ := r
              obtain ⟨m2, l2, h1, h2⟩ := remove_after_node_wellFormed hw hf hm ha
              rw [hpre] at h1
              rw [h1] at h
              simp only [Option.some.injEq, Prod.mk.injEq] at h
              obtain ⟨_, h3, h4⟩ := h
              subst h3 h4
              refine ⟨l2, _, rfl, h2, ?_⟩
              simp only [List.length_append, List.length_cons]
              omega

/-- In a well-formed list `head` is `NULL` exactly when `tail` is `NULL`, exactly
when `size` is 0; `size` is the number of nodes and `tail` the last of them. -/
theorem wellFormed_null_iff {m : Mem} {l : linked_list} {cells : List (Nat × Nat)}
    (hw : wellFormed m l cells) :
    (l.head = none ↔ l.size = 0) ∧ (l.tail = none ↔ l.size = 0) := by
  obtain ⟨hl, _, ht, hs, _⟩ := hw
  cases cells with
  | nil =>
    rw [linked_nil] at hl
    simp [hl, ht, hs]
  | cons x xs =>
    have hh := linked_head_ne_none hl
    have htl : l.tail ≠ none := by
      rw [ht]
      intro h0
      rw [List.getLast?_eq_none_iff] at h0
      simp at h0
    simp [hh, htl, hs]

/-- Every sequence of calls of the four modifying functions that runs to its end
on a well-formed list (no call dereferencing a missing node, and the sizes
staying within `size_t`) leaves a well-formed list, whether the calls succeed or
not. -/
theorem runCalls_wellFormed (calls : List ListCall) {m m1 : Mem} {l : linked_list}
    {cells : List (Nat × Nat)} {ll1 : Option linked_list} (hw : wellFormed m l cells)
    (hlen : cells.length + calls.length ≤ SIZE_MAX)
    (h : runCalls m (some l) calls = some (m1, ll1)) :
    ∃ l1 cells1, ll1 = some l1 ∧ wellFormed m1 l1 cells1 := by
  induction calls generalizing m l cells with
  | nil =>
    simp only [runCalls, Option.some.injEq, Prod.mk.injEq] at h
    obtain ⟨h1, h2⟩ := h
    subst h1 h2
    exact ⟨l, cells, rfl, hw⟩
  | cons c rest ih =>
    simp only [List.length_cons] at hlen
    have hlt : cells.length < SIZE_MAX := by omega
    simp only [runCalls] at h
    cases hc : runCall m (some l) c with
    | none => simp [hc] at h
    | some r =>
      obtain ⟨m2, ll2⟩ := r
      simp only [hc] at h
      have hstep : ∃ l2 cells2, ll2 = some l2 ∧ wellFormed m2 l2 cells2
          ∧ cells2.length ≤ cells.length + 1 := by
        cases c with
        | insert_front d =>
          simp only [runCall, Option.map_eq_some'] at hc
          obtain ⟨⟨b, m3, ll3⟩, h1, h2⟩ := hc
          simp only [Prod.mk.injEq] at h2
          obtain ⟨h3, h4⟩ := h2
          subst h3 h4
          exact insert_front_keeps_wellFormed hw hlt h1
        | insert_end d =>
          simp only [runCall, Option.map_eq_some'] at hc
          obtain ⟨⟨b, m3, ll3⟩, h1, h2⟩ := hc
          simp only [Prod.mk.injEq] at h2
          obtain ⟨h3, h4⟩ := h2
          subst h3 h4
          exact insert_end_keeps_wellFormed hw hlt h1
        | insert index d =>
          simp only [runCall, Option.map_eq_some'] at hc
          obtain ⟨⟨b, m3, ll3⟩, h1, h2⟩ := hc
          simp only [Prod.mk.injEq] at h2
          obtain ⟨h3, h4⟩ := h2
          subst h3 h4
          exact insert_keeps_wellFormed hw hlt h1
        | remove index =>
          simp only [runCall, Option.map_eq_some'] at hc
          obtain ⟨⟨b, m3, ll3⟩, h1, h2⟩ := hc
          simp only [Prod.mk.injEq] at h2
          obtain ⟨h3, h4⟩ := h2
          subst h3 h4
          obtain ⟨l2, cells2, e, w, hle⟩ := remove_keeps_wellFormed hw h1
          exact ⟨l2, cells2, e, w, by omega⟩
      obtain ⟨l2, cells2, e, w, hle⟩ := hstep
      subst e
      exact ih w (by omega) h

/-- C19: a sequence of calls on the list of `linked_list_create` can end without
a well-formed list.  The single call `linked_list_remove(ll, 0)` on the new, empty
list dereferences `NULL` and has no defined result; the same happens when the
list has been filled and emptied again before. -/
theorem runCalls_remove_on_empty_no_result :
    linked_list_create emptyMem = (emptyMem, some emptyList)
      ∧ runCalls emptyMem (some emptyList) [ListCall.remove 0] = none
      ∧ runCalls emptyMem (some emptyList)
          [ListCall.insert_end 1, ListCall.remove 0, ListCall.remove 0] = none := by
  decide

/-- On a well-formed list that is not empty, `linked_list_remove` at an index
from the size on returns `false`; the header and the nodes are unchanged. -/
theorem remove_past_end_nonempty {m : Mem} {l : linked_list} {cells : List (Nat × Nat)}
    (index : Nat) (hw : wellFormed m l cells) (hne : cells ≠ [])
    (hi : cells.length ≤ index) :
    ∃ m1, linked_list_remove m (some l) index = some (false, m1, some l)
      ∧ m1.nodes = m.nodes := by
  have hS := SIZE_MAX_eq
  have hs := hw.2.2.2.1
  have hb := hw.2.2.2.2
  have hpos : 0 < cells.length := List.length_pos.mpr hne
  cases hf : m.free_fptr with
  | false => exact ⟨m, by simp [linked_list_remove, hf], rfl⟩
  | true =>
    by_cases hsz : l.size < index
    · exact ⟨m, by simp [linked_list_remove, hsz], rfl⟩
    · cases index with
      | zero => omega
      | succ k =>
        have hk : k < cells.length := by omega
        have hidx : (k + 1 + SIZE_MAX) % 2 ^ 64 = k := by omega
        cases hm : m.malloc_fptr with
        | false =>
          exact ⟨m, by simp [linked_list_remove, hf, hsz, hidx, linked_list_create_iterator, hm],
            rfl⟩
        | true =>
          cases ha : m.malloc.1 with
          | false =>
            have hit := create_iterator_no_memory hw hm ha hk
            refine ⟨m.malloc.2, ?_, malloc_nodes m⟩
            simp only [linked_list_remove, hf, hsz, hidx, hit, Bool.not_true, decide_False,
              Bool.or_false, Bool.false_eq_true, if_false, Nat.add_one_ne_zero]
          | true =>
            obtain ⟨pre, c, post, hc, hpre, _⟩ := exists_split_one cells k hk
            subst hc
            obtain ⟨c1, c2⟩ := c
            have hpost : post = [] := by
              simp only [List.length_append, List.length_cons] at hi hs hsz
              exact List.length_eq_zero.mp (by omega)
            subst hpost
            have hit := create_iterator_at_node hw hm ha
            rw [hpre] at hit
            have hl := (wellFormed_malloc hw).1
            rw [linked_append] at hl
            obtain ⟨q, _, h2⟩ := hl
            rw [linked_cons] at h2
            obtain ⟨_, nxt, hn, h3⟩ := h2
            rw [linked_nil] at h3
            subst h3
            refine ⟨m.malloc.2, ?_, malloc_nodes m⟩
            simp only [linked_list_remove, hf, hsz, hidx, hit, hn, Bool.not_true,
              decide_False, Bool.or_false, Bool.false_eq_true, if_false,
              Nat.add_one_ne_zero]

/-- On every well-formed empty list, with the release function registered,
`linked_list_remove` at index 0 reads through the `NULL` head. -/
theorem remove_empty_none {m : Mem} {l : linked_list} (hw : wellFormed m l [])
    (hf : m.free_fptr = true) : linked_list_remove m (some l) 0 = none := by
  have hh : l.head = none := by
    have := hw.1
    rw [linked_nil] at this
    exact this
  simp [linked_list_remove, hf, hh]

/-- On every well-formed list that is not empty, with the allocator registered
and the allocation succeeding, `linked_list_create_iterator` at the index equal
to the size reads the data of a `NULL` node. -/
theorem create_iterator_at_size_none {m : Mem} {l : linked_list} {cells : List (Nat × Nat)}
    (hw : wellFormed m l cells) (hne : cells ≠ []) (hm : m.malloc_fptr = true)
    (ha : m.malloc.1 = true) :
    linked_list_create_iterator m (some l) cells.length = none := by
  have hs := hw.2.2.2.1
  have hpos : 0 < cells.length := List.length_pos.mpr hne
  have hadv := advance_linked (wellFormed_malloc hw).1 0
  have hsz : ¬ l.size < cells.length := by omega
  have hz : ¬ l.size = 0 := by omega
  simp [linked_list_create_iterator, hm, ha, hsz, hz, hadv]
